import Mathlib

/-!
Verification development for the `english-wiki-frequency-list` program
(Rust sources `src/main.rs` and `src/wikitext.rs`).

The program's own code is shallowly embedded here:
strings are modelled as `List Char`, the regex patterns written in the
source are translated into explicit matching functions, the stateful
iterator `ArticleBlockIter` becomes explicit state passing, hash maps
become association lists, and every panic becomes `Option.none`.
External library calls (bzip decompression, file I/O, the `scraper`
HTML pre-strip, the `roxmltree` XML parse) are outside the model: the
functions below consume the text those collaborators produce.

Notes on fidelity kept throughout:
* Rust regex `\w` is a Unicode word class; the model restricts it to
  its ASCII part (letters, digits, underscore), which is exact on the
  ASCII inputs all concrete claims use.
* `str::trim` and `char::is_whitespace` are modelled with Lean's ASCII
  `Char.isWhitespace`.
* `u64`/`usize` parsing keeps the `2^64` overflow bound of the source.
-/

/-- Curly/square bracket characters, named to keep them out of string
literals. `lbrace = Char.ofNat 123` is the character the source writes
in the `TEMPLATE` pattern. -/
def lbrace : Char := Char.ofNat 123

/-- Closing curly brace. -/
def rbrace : Char := Char.ofNat 125

/-- Opening square bracket (the `LINK` pattern delimiter). -/
def lbrack : Char := Char.ofNat 91

/-- Closing square bracket. -/
def rbrack : Char := Char.ofNat 93

/-- Model of the regex class `\w` (word character), restricted to its
ASCII part: letters, digits and underscore. -/
def isWordChar (c : Char) : Bool := c.isAlphanum || c = '_'

/-- The three internal joiner characters of the word pattern
`\w(?:(?:\.|\-|')?\w+)*` : dot, hyphen, apostrophe. -/
def isJoiner (c : Char) : Bool := c = '.' || c = '-' || c = '\''

/-- Greedy length consumed by `(?:(?:\.|\-|')?\w+)*` : repeatedly take a
word character, or a joiner immediately followed by a word character. -/
def wordExt : List Char → Nat
  | [] => 0
  | [c] => if isWordChar c then 1 else 0
  | c :: d :: cs =>
    if isWordChar c then 1 + wordExt (d :: cs)
    else if isJoiner c && isWordChar d then 2 + wordExt cs
    else 0

/-- Anchored match of the word pattern `\A\w(?:(?:\.|\-|')?\w+)*`
(`WORD` in `wikitext.rs`, and the unanchored `WORD_REGEX` of
`main.rs` when searched at a given position): returns the length of
the greedy match, if any. -/
def wordMatch (cs : List Char) : Option Nat :=
  match cs with
  | c :: rest => if isWordChar c then some (1 + wordExt rest) else none
  | [] => none

/-- Index of the first adjacent pair of closing braces in a list. -/
def findBrace2 : List Char → Option Nat
  | a :: b :: rest =>
    if a = rbrace && b = rbrace then some 0
    else (findBrace2 (b :: rest)).map (· + 1)
  | _ => none

/-- Anchored match of `TEMPLATE` = `\A\{\{.+?\}\}` (dot matches
newline): two opening braces, a lazy non-empty run of arbitrary
characters, then two closing braces. Returns the match length. -/
def templateMatch (cs : List Char) : Option Nat :=
  match cs with
  | a :: b :: rest =>
    if a = lbrace && b = lbrace then
      match rest with
      | [] => none
      | _ :: rest2 => (findBrace2 rest2).map (fun q => q + 5)
    else none
  | _ => none

/-- Anchored match of `LINK` = `\A\[.+?\]` (dot matches newline): an
opening bracket, a lazy non-empty run, then a closing bracket. -/
def linkMatch (cs : List Char) : Option Nat :=
  match cs with
  | a :: rest =>
    if a = lbrack then
      match rest with
      | [] => none
      | _ :: rest2 => (rest2.findIdx? (fun c => c = rbrack)).map (fun q => q + 3)
    else none
  | [] => none

/-- Character class `[-a-zA-Z0-9@:%._\+~#=]` of the URL pattern. -/
def urlClassA (c : Char) : Bool :=
  c = '-' || c.isAlpha || c.isDigit || c = '@' || c = ':' || c = '%' ||
  c = '.' || c = '_' || c = '+' || c = '~' || c = '#' || c = '='

/-- Character class `[a-zA-Z0-9()]` of the URL pattern. -/
def urlClassB (c : Char) : Bool :=
  c.isAlpha || c.isDigit || c = '(' || c = ')'

/-- Character class `[-a-zA-Z0-9()@:%_\+.~#?&//=]` of the URL pattern. -/
def urlClassC (c : Char) : Bool :=
  c = '-' || c.isAlpha || c.isDigit || c = '(' || c = ')' || c = '@' ||
  c = ':' || c = '%' || c = '_' || c = '+' || c = '.' || c = '~' ||
  c = '#' || c = '?' || c = '&' || c = '/' || c = '='

/-- Consume an exact literal from the front of a list, returning the
remainder on success. -/
def dropLit : List Char → List Char → Option (List Char)
  | [], cs => some cs
  | l :: ls, c :: cs => if c = l then dropLit ls cs else none
  | _ :: _, [] => none

/-- Backtracking over the `[a-zA-Z0-9()]{1,6}\b` part of the URL
pattern followed by the greedy trailing class-C run: try the class-B
run length `b` from the greedy maximum down to 1; accept when the word
boundary `\b` holds after it, and then consume the maximal class-C
run. Returns total consumed length. -/
def tryBGo : Nat → List Char → Option Nat
  | 0, _ => none
  | b + 1, cs =>
    match cs.get? b with
    | none => tryBGo b cs
    | some lc =>
      let nw : Bool := match cs.get? (b + 1) with
        | some c => isWordChar c
        | none => false
      if isWordChar lc != nw then
        some ((b + 1) + ((cs.drop (b + 1)).takeWhile urlClassC).length)
      else tryBGo b cs

/-- The `[a-zA-Z0-9()]{1,6}\b([-a-zA-Z0-9()@:%_\+.~#?&//=]*)` tail of
the URL pattern, starting just after the mandatory dot. -/
def tryB (cs : List Char) : Option Nat :=
  tryBGo (min 6 (cs.takeWhile urlClassB).length) cs

/-- Backtracking over `[-a-zA-Z0-9@:%._\+~#=]{1,256}` : try run length
`a` from the greedy maximum down to 1; each candidate must be followed
by a literal dot and a successful class-B tail. -/
def tryA : Nat → List Char → Option Nat
  | 0, _ => none
  | a + 1, cs =>
    match cs.drop (a + 1) with
    | c :: rest =>
      if c = '.' then
        match tryB rest with
        | some t => some ((a + 1) + 1 + t)
        | none => tryA a cs
      else tryA a cs
    | [] => tryA a cs

/-- The part of the URL pattern after `https?://(www\.)?`. -/
def urlTail (cs : List Char) : Option Nat :=
  tryA (min 256 (cs.takeWhile urlClassA).length) cs

/-- The `(www\.)?` group followed by the URL tail: the greedy engine
first tries to consume `www.`; if the rest of the pattern then fails
it backtracks to the empty alternative. `base` counts the characters
already consumed by `https?://`. -/
def urlAfterScheme (base : Nat) (r3 : List Char) : Option Nat :=
  match dropLit ['w', 'w', 'w', '.'] r3 with
  | some r4 =>
    match urlTail r4 with
    | some t => some (base + 4 + t)
    | none => (urlTail r3).map (fun t => base + t)
  | none => (urlTail r3).map (fun t => base + t)

/-- Anchored match of the `URL` pattern
`\Ahttps?://(www\.)?[-a-zA-Z0-9@:%._\+~#=]{1,256}\.[a-zA-Z0-9()]{1,6}\b([-a-zA-Z0-9()@:%_\+.~#?&//=]*)`.
Returns the match length. The optional `s` and the optional `www.` are
tried greedily first, as a leftmost-first regex engine does (when the
character after `http` is `s` the scheme cannot also match without it,
since `s` is not `:`). -/
def urlMatch (cs : List Char) : Option Nat :=
  match dropLit ['h', 't', 't', 'p'] cs with
  | none => none
  | some ('s' :: rest) =>
    match dropLit [':', '/', '/'] rest with
    | none => none
    | some r3 => urlAfterScheme 8 r3
  | some r1 =>
    match dropLit [':', '/', '/'] r1 with
    | none => none
    | some r3 => urlAfterScheme 7 r3

/-- Case-insensitive literal consumption (the pattern is given in
lowercase; input characters are lowered before comparison). -/
def dropLitCI : List Char → List Char → Option (List Char)
  | [], cs => some cs
  | l :: ls, c :: cs => if c.toLower = l then dropLitCI ls cs else none
  | _ :: _, [] => none

/-- After the section heading phrase, `END_SEC` requires `\W*=+` : some
run of non-word characters immediately followed by an equals sign;
since `=` is itself a non-word character this holds exactly when the
maximal non-word run contains an `=`. -/
def endSecTail (cs : List Char) : Bool :=
  (cs.takeWhile (fun c => !(isWordChar c))).contains '='

/-- Model of `END_SEC` = `\A=+\W*(?:See Also|External Links)\W*=+`
(case-insensitive), used only as a boolean `is_match`. `=+\W*` consumes
a non-empty run of non-word characters that must start with `=`, and
the phrase must begin at the first word character. -/
def endSec (cs : List Char) : Bool :=
  match cs with
  | c :: _ =>
    c = '=' &&
      (let rest := cs.dropWhile (fun c => !(isWordChar c))
       match dropLitCI "see also".data rest with
       | some after => endSecTail after
       | none =>
         match dropLitCI "external links".data rest with
         | some after => endSecTail after
         | none => false)
  | [] => false

/-- `word.chars().filter(char::is_ascii_alphabetic).map(to_ascii_lowercase)`
applied to a matched slice: the normalized token. -/
def normalizeTok (cs : List Char) : String :=
  String.mk ((cs.filter Char.isAlpha).map Char.toLower)

/-- Outcome of one iteration of the `'outer` scan loop of
`wikitext_words`: stop scanning, emit a token and continue, or
continue without emitting. -/
inductive ScanOut where
  | stop : ScanOut
  | emit : String → List Char → ScanOut
  | skip : List Char → ScanOut
deriving DecidableEq

/-- The `END_SEC` check followed by the one-character fallback of the
scan loop: stop on a trailing-section heading, otherwise advance one
character, or break when fewer than two characters remain. -/
def fallbackStep (cs : List Char) : ScanOut :=
  if endSec cs then ScanOut.stop
  else
    match cs with
    | [] => ScanOut.stop
    | [_] => ScanOut.stop
    | _ :: rest => ScanOut.skip rest

/-- Body of one iteration of the `'outer` loop of `wikitext_words`
(`src/wikitext.rs` lines 53-102): try the skip regexes `TEMPLATE`,
`LINK`, `URL` in that order (advance past a match, emitting nothing);
then the `WORD` regex (emit the normalized token and advance — but
when the normalized token is empty the branch returns `false` without
advancing); then `END_SEC` (stop); then the one-character fallback. -/
def scanBody (cs : List Char) : ScanOut :=
  match templateMatch cs with
  | some n => ScanOut.skip (cs.drop n)
  | none =>
    match linkMatch cs with
    | some n => ScanOut.skip (cs.drop n)
    | none =>
      match urlMatch cs with
      | some n => ScanOut.skip (cs.drop n)
      | none =>
        match wordMatch cs with
        | some n =>
          let w := normalizeTok (cs.take n)
          if w.isEmpty then fallbackStep cs
          else ScanOut.emit w (cs.drop n)
        | none => fallbackStep cs

/-- One iteration of the scan loop, including the loop guard
`while !text.is_empty()`: on an empty cursor the loop ends. -/
def scanStep : List Char → ScanOut
  | [] => ScanOut.stop
  | c :: cs' => scanBody (c :: cs')

/-- Fuel-driven iteration of `scanStep`, collecting emitted tokens.
Every non-stop step consumes at least one character, so fuel equal to
the text length suffices (proved below). -/
def scanGo : Nat → List Char → List String
  | 0, _ => []
  | fuel + 1, cs =>
    match scanStep cs with
    | ScanOut.stop => []
    | ScanOut.emit w rest => w :: scanGo fuel rest
    | ScanOut.skip rest => scanGo fuel rest

/-- The token stream produced by the scan loop from a cursor position
(the suffix of the text at the cursor). -/
def scanFrom (cs : List Char) : List String := scanGo cs.length cs

/-- `wikitext_words` of `src/wikitext.rs` on already-HTML-stripped
text (the `scraper` pre-strip that produces `no_html_text` is an
external library call; on tag-free input it returns the trimmed text
itself). -/
def wikitext_words (s : String) : List String := scanFrom s.data

/-! ### Basic facts about the character classes and matchers -/

theorem isJoiner_elim {c : Char} (h : isJoiner c = true) :
    c = '.' ∨ c = '-' ∨ c = '\'' := by
  simp only [isJoiner, Bool.or_eq_true, decide_eq_true_eq] at h
  tauto

theorem isJoiner_not_word {c : Char} (h : isJoiner c = true) : isWordChar c = false := by
  rcases isJoiner_elim h with h' | h' | h' <;> subst h' <;> decide

theorem isJoiner_not_alpha {c : Char} (h : isJoiner c = true) : c.isAlpha = false := by
  rcases isJoiner_elim h with h' | h' | h' <;> subst h' <;> decide

theorem isWordChar_of_eq_false_ne {c d : Char} (hc : isWordChar c = true)
    (hd : isWordChar d = false) : c ≠ d := by
  intro h
  rw [h, hd] at hc
  exact Bool.false_ne_true hc

theorem templateMatch_head {cs : List Char} {n : Nat}
    (h : templateMatch cs = some n) : cs.head? = some lbrace := by
  match cs with
  | [] => simp [templateMatch] at h
  | [a] => simp [templateMatch] at h
  | a :: b :: rest =>
    simp only [templateMatch] at h
    by_cases hab : a = lbrace && b = lbrace
    · rw [if_pos hab] at h
      have := (Bool.and_eq_true _ _).mp hab
      simp only [decide_eq_true_eq] at this
      simp [this.1]
    · rw [if_neg hab] at h
      exact absurd h (by simp)

theorem linkMatch_head {cs : List Char} {n : Nat}
    (h : linkMatch cs = some n) : cs.head? = some lbrack := by
  match cs with
  | [] => simp [linkMatch] at h
  | a :: rest =>
    simp only [linkMatch] at h
    by_cases ha : a = lbrack
    · simp [ha]
    · rw [if_neg (by simpa using ha)] at h
      exact absurd h (by simp)

theorem dropLit_cons {l : Char} {ls cs : List Char} {r : List Char}
    (h : dropLit (l :: ls) cs = some r) :
    ∃ c cs', cs = c :: cs' ∧ c = l ∧ dropLit ls cs' = some r := by
  match cs with
  | [] => simp [dropLit] at h
  | c :: cs' =>
    simp only [dropLit] at h
    by_cases hc : c = l
    · exact ⟨c, cs', rfl, hc, by rwa [if_pos hc] at h⟩
    · rw [if_neg hc] at h
      exact absurd h (by simp)

theorem urlMatch_head {cs : List Char} {n : Nat}
    (h : urlMatch cs = some n) : cs.head? = some 'h' := by
  unfold urlMatch at h
  cases hd : dropLit ['h', 't', 't', 'p'] cs with
  | none => rw [hd] at h; exact absurd h (by simp)
  | some r1 =>
    obtain ⟨c, cs', hcs, hc, -⟩ := dropLit_cons hd
    rw [hcs, hc]
    rfl

theorem endSec_head {cs : List Char} (h : endSec cs = true) :
    cs.head? = some '=' := by
  match cs with
  | [] => simp [endSec] at h
  | c :: rest =>
    simp only [endSec, Bool.and_eq_true, decide_eq_true_eq] at h
    simp [h.1]

theorem templateMatch_pos {cs : List Char} {n : Nat}
    (h : templateMatch cs = some n) : 1 ≤ n := by
  match cs with
  | [] => simp [templateMatch] at h
  | [a] => simp [templateMatch] at h
  | a :: b :: rest =>
    simp only [templateMatch] at h
    split at h
    · match rest with
      | [] => exact absurd h (by simp)
      | _ :: rest2 =>
        simp only [Option.map_eq_some'] at h
        obtain ⟨q, -, hq⟩ := h
        omega
    · exact absurd h (by simp)

theorem linkMatch_pos {cs : List Char} {n : Nat}
    (h : linkMatch cs = some n) : 1 ≤ n := by
  match cs with
  | [] => simp [linkMatch] at h
  | a :: rest =>
    simp only [linkMatch] at h
    split at h
    · match rest with
      | [] => exact absurd h (by simp)
      | _ :: rest2 =>
        simp only [Option.map_eq_some'] at h
        obtain ⟨q, -, hq⟩ := h
        omega
    · exact absurd h (by simp)

theorem urlAfterScheme_pos {base : Nat} {r3 : List Char} {n : Nat}
    (h : urlAfterScheme base r3 = some n) : base ≤ n := by
  unfold urlAfterScheme at h
  split at h
  · split at h
    · simp only [Option.some_inj] at h
      omega
    · simp only [Option.map_eq_some'] at h
      obtain ⟨t, -, ht⟩ := h
      omega
  · simp only [Option.map_eq_some'] at h
    obtain ⟨t, -, ht⟩ := h
    omega

theorem urlMatch_pos {cs : List Char} {n : Nat}
    (h : urlMatch cs = some n) : 1 ≤ n := by
  unfold urlMatch at h
  split at h
  · exact absurd h (by simp)
  · split at h
    · exact absurd h (by simp)
    · have := urlAfterScheme_pos h
      omega
  · split at h
    · exact absurd h (by simp)
    · have := urlAfterScheme_pos h
      omega

theorem wordMatch_pos {cs : List Char} {n : Nat}
    (h : wordMatch cs = some n) : 1 ≤ n := by
  match cs with
  | [] => simp [wordMatch] at h
  | c :: rest =>
    simp only [wordMatch] at h
    split at h
    · simp only [Option.some_inj] at h
      omega
    · exact absurd h (by simp)

theorem wordMatch_elim {cs : List Char} {n : Nat} (h : wordMatch cs = some n) :
    ∃ c rest, cs = c :: rest ∧ isWordChar c = true ∧ n = 1 + wordExt rest := by
  match cs with
  | [] => simp [wordMatch] at h
  | c :: rest =>
    simp only [wordMatch] at h
    split at h
    · exact ⟨c, rest, rfl, by assumption, by simpa using h.symm⟩
    · exact absurd h (by simp)

/-! ### The scan loop advances and its fuel bound is exact -/

theorem fallbackStep_skip {cs rest : List Char}
    (h : fallbackStep cs = ScanOut.skip rest) : rest.length < cs.length := by
  unfold fallbackStep at h
  split at h
  · exact absurd h (by simp)
  · split at h
    · exact absurd h (by simp)
    · exact absurd h (by simp)
    · cases h
      simp

theorem fallbackStep_no_emit {cs rest : List Char} {w : String} :
    fallbackStep cs ≠ ScanOut.emit w rest := by
  unfold fallbackStep
  split
  · simp
  · split <;> simp

theorem scanBody_skip_length {cs rest : List Char} (hne : 0 < cs.length)
    (h : scanBody cs = ScanOut.skip rest) : rest.length < cs.length := by
  unfold scanBody at h
  split at h
  · cases h
    rename_i n heq
    have := templateMatch_pos heq
    simp only [List.length_drop]
    omega
  · split at h
    · cases h
      rename_i n heq
      have := linkMatch_pos heq
      simp only [List.length_drop]
      omega
    · split at h
      · cases h
        rename_i n heq
        have := urlMatch_pos heq
        simp only [List.length_drop]
        omega
      · split at h
        · dsimp only at h
          split at h
          · exact fallbackStep_skip h
          · exact absurd h (by simp)
        · exact fallbackStep_skip h

theorem scanBody_emit_length {cs rest : List Char} {w : String}
    (h : scanBody cs = ScanOut.emit w rest) : rest.length < cs.length := by
  unfold scanBody at h
  split at h
  · exact absurd h (by simp)
  · split at h
    · exact absurd h (by simp)
    · split at h
      · exact absurd h (by simp)
      · split at h
        · dsimp only at h
          split at h
          · exact absurd h fallbackStep_no_emit
          · cases h
            rename_i n heq hne
            have hp := wordMatch_pos heq
            obtain ⟨c, r, hcs, -, -⟩ := wordMatch_elim heq
            subst hcs
            simp only [List.length_drop]
            simp only [List.length_cons]
            omega
        · exact absurd h fallbackStep_no_emit

theorem scanStep_skip_length {cs rest : List Char}
    (h : scanStep cs = ScanOut.skip rest) : rest.length < cs.length := by
  match cs with
  | [] => exact absurd h (by simp [scanStep])
  | c :: cs' => exact scanBody_skip_length (by simp) h

theorem scanStep_emit_length {cs rest : List Char} {w : String}
    (h : scanStep cs = ScanOut.emit w rest) : rest.length < cs.length := by
  match cs with
  | [] => exact absurd h (by simp [scanStep])
  | c :: cs' => exact scanBody_emit_length h

theorem scanGo_nil (fuel : Nat) : scanGo fuel [] = [] := by
  cases fuel with
  | zero => rfl
  | succ f => rfl

theorem scanGo_of_le : ∀ (n : Nat) (cs : List Char) (fuel : Nat),
    cs.length ≤ n → cs.length ≤ fuel → scanGo fuel cs = scanFrom cs := by
  intro n
  induction n with
  | zero =>
    intro cs fuel h1 _
    have hnil : cs = [] := List.length_eq_zero.mp (Nat.le_zero.mp h1)
    subst hnil
    simp [scanFrom, scanGo_nil]
  | succ n ih =>
    intro cs fuel h1 h2
    match cs, fuel with
    | [], _ => simp [scanFrom, scanGo_nil]
    | c :: cs', 0 => simp at h2
    | c :: cs', fuel + 1 =>
      show scanGo (fuel + 1) (c :: cs') = scanGo (cs'.length + 1) (c :: cs')
      rw [scanGo, scanGo]
      cases hstep : scanStep (c :: cs') with
      | stop => rfl
      | emit w rest =>
        have hr : rest.length < cs'.length + 1 := scanStep_emit_length hstep
        have h1' : cs'.length + 1 ≤ n + 1 := h1
        have h2' : cs'.length + 1 ≤ fuel + 1 := h2
        show w :: scanGo fuel rest = w :: scanGo cs'.length rest
        rw [ih rest fuel (by omega) (by omega), ih rest cs'.length (by omega) (by omega)]
      | skip rest =>
        have hr : rest.length < cs'.length + 1 := scanStep_skip_length hstep
        have h1' : cs'.length + 1 ≤ n + 1 := h1
        have h2' : cs'.length + 1 ≤ fuel + 1 := h2
        show scanGo fuel rest = scanGo cs'.length rest
        rw [ih rest fuel (by omega) (by omega), ih rest cs'.length (by omega) (by omega)]

theorem scanFrom_step (cs : List Char) :
    scanFrom cs = match scanStep cs with
      | ScanOut.stop => []
      | ScanOut.emit w rest => w :: scanFrom rest
      | ScanOut.skip rest => scanFrom rest := by
  match cs with
  | [] => rfl
  | c :: cs' =>
    show scanGo (cs'.length + 1) (c :: cs') = _
    rw [scanGo]
    cases hstep : scanStep (c :: cs') with
    | stop => rfl
    | emit w rest =>
      have hr : rest.length ≤ cs'.length := by
        have := scanStep_emit_length hstep
        simp only [List.length_cons] at this
        omega
      show w :: scanGo cs'.length rest = w :: scanFrom rest
      rw [scanGo_of_le cs'.length rest cs'.length hr hr]
    | skip rest =>
      have hr : rest.length ≤ cs'.length := by
        have := scanStep_skip_length hstep
        simp only [List.length_cons] at this
        omega
      show scanGo cs'.length rest = scanFrom rest
      rw [scanGo_of_le cs'.length rest cs'.length hr hr]

theorem scanFrom_skip {cs rest : List Char} (h : scanStep cs = ScanOut.skip rest) :
    scanFrom cs = scanFrom rest := by
  rw [scanFrom_step, h]

theorem scanFrom_emit {cs rest : List Char} {w : String}
    (h : scanStep cs = ScanOut.emit w rest) : scanFrom cs = w :: scanFrom rest := by
  rw [scanFrom_step, h]

theorem scanFrom_stop {cs : List Char} (h : scanStep cs = ScanOut.stop) :
    scanFrom cs = [] := by
  rw [scanFrom_step, h]

/-! ### Structure of the greedy word match -/

/-- Position `n` cannot be crossed by a step of the word pattern: the
character there (if any) is not a word character, and a joiner there is
not followed by a word character. This is exactly the condition under
which the greedy `wordExt` scan stops at or before `n`. -/
def noExtAt (cs : List Char) (n : Nat) : Prop :=
  (∀ c, cs.get? n = some c → isWordChar c = false) ∧
  (∀ c d, cs.get? n = some c → cs.get? (n + 1) = some d →
    isJoiner c = true → isWordChar d = false)

theorem noExtAt_shift {c : Char} {cs : List Char} {n : Nat}
    (h : noExtAt (c :: cs) (n + 1)) : noExtAt cs n := by
  obtain ⟨h1, h2⟩ := h
  exact ⟨fun x hx => h1 x (by simpa using hx),
    fun x y hx hy => h2 x y (by simpa using hx) (by simpa using hy)⟩

theorem wordExt_le (cs : List Char) : wordExt cs ≤ cs.length := by
  induction cs using wordExt.induct with
  | case1 => simp [wordExt]
  | case2 c hc => simp [wordExt, hc]
  | case3 c hc => simp [wordExt, hc]
  | case4 c d cs hc ih =>
    simp only [wordExt, if_pos hc, List.length_cons]
    simp only [List.length_cons] at ih
    omega
  | case5 c d cs hc hjd ih =>
    simp only [wordExt, if_neg hc, if_pos hjd, List.length_cons]
    omega
  | case6 c d cs hc hjd =>
    simp only [wordExt, if_neg hc, if_neg hjd, List.length_cons]
    omega

theorem wordExt_chars (cs : List Char) :
    ∀ c ∈ cs.take (wordExt cs), (isWordChar c || isJoiner c) = true := by
  induction cs using wordExt.induct with
  | case1 => simp [wordExt]
  | case2 c hc =>
    intro x hx
    simp only [wordExt, if_pos hc, List.take_succ_cons, List.take_nil,
      List.mem_singleton] at hx
    subst hx
    simp [hc]
  | case3 c hc =>
    intro x hx
    simp [wordExt, hc] at hx
  | case4 c d cs hc ih =>
    intro x hx
    simp only [wordExt, if_pos hc, Nat.add_comm 1, List.take_succ_cons] at hx
    rcases List.mem_cons.mp hx with h | h
    · subst h; simp [hc]
    · exact ih x h
  | case5 c d cs hc hjd ih =>
    intro x hx
    simp only [wordExt, if_neg hc, if_pos hjd] at hx
    have h2 : (2 : Nat) + wordExt cs = (wordExt cs + 1) + 1 := by omega
    rw [h2, List.take_succ_cons, List.take_succ_cons] at hx
    have hj := (Bool.and_eq_true _ _).mp hjd
    rcases List.mem_cons.mp hx with h | h
    · subst h; simp [isJoiner] at hj ⊢; tauto
    · rcases List.mem_cons.mp h with h' | h'
      · subst h'; simp [hj.2]
      · exact ih x h'
  | case6 c d cs hc hjd =>
    intro x hx
    simp [wordExt, hc, hjd] at hx

theorem wordExt_stop (cs : List Char) : noExtAt cs (wordExt cs) := by
  induction cs using wordExt.induct with
  | case1 =>
    exact ⟨fun c hc => by simp at hc, fun c d hc => by simp at hc⟩
  | case2 c hc =>
    simp only [wordExt, if_pos hc]
    exact ⟨fun x hx => by simp at hx, fun x y hx => by simp at hx⟩
  | case3 c hc =>
    simp only [wordExt, if_neg hc]
    constructor
    · intro x hx
      simp only [List.get?_cons_zero, Option.some_inj] at hx
      subst hx
      simpa using hc
    · intro x y hx hy
      simp at hy
  | case4 c d cs hc ih =>
    simp only [wordExt, if_pos hc]
    constructor
    · intro x hx
      have e1 : 1 + wordExt (d :: cs) = wordExt (d :: cs) + 1 := Nat.add_comm _ _
      rw [e1] at hx
      exact ih.1 x (by simpa using hx)
    · intro x y hx hy
      have e1 : 1 + wordExt (d :: cs) = wordExt (d :: cs) + 1 := Nat.add_comm _ _
      have e2 : 1 + wordExt (d :: cs) + 1 = wordExt (d :: cs) + 1 + 1 := by omega
      rw [e1] at hx
      rw [e2] at hy
      exact ih.2 x y (by simpa using hx) (by simpa using hy)
  | case5 c d cs hc hjd ih =>
    simp only [wordExt, if_neg hc, if_pos hjd]
    constructor
    · intro x hx
      have e1 : (2 : Nat) + wordExt cs = wordExt cs + 1 + 1 := by omega
      rw [e1] at hx
      exact ih.1 x (by simpa using hx)
    · intro x y hx hy
      have e1 : (2 : Nat) + wordExt cs = wordExt cs + 1 + 1 := by omega
      have e2 : (2 : Nat) + wordExt cs + 1 = wordExt cs + 1 + 1 + 1 := by omega
      rw [e1] at hx
      rw [e2] at hy
      exact ih.2 x y (by simpa using hx) (by simpa using hy)
  | case6 c d cs hc hjd =>
    simp only [wordExt, if_neg hc, if_neg hjd]
    constructor
    · intro x hx
      simp only [List.get?_cons_zero, Option.some_inj] at hx
      subst hx
      simpa using hc
    · intro x y hx hy hj
      simp only [List.get?_cons_zero, Option.some_inj] at hx
      simp only [List.get?_cons_succ, List.get?_cons_zero, Option.some_inj] at hy
      subst hx; subst hy
      by_contra hw
      rw [hj] at hjd
      simp only [Bool.true_and] at hjd
      exact hjd (by simpa using hw)

theorem wordExt_le_of_noExtAt : ∀ (cs : List Char) (k : Nat),
    noExtAt cs k → wordExt cs ≤ k := by
  intro cs
  induction cs using wordExt.induct with
  | case1 => intro k _; simp [wordExt]
  | case2 c hc =>
    intro k hk
    simp only [wordExt, if_pos hc]
    match k with
    | 0 =>
      have := hk.1 c (by simp)
      rw [hc] at this
      exact absurd this (by simp)
    | k + 1 => omega
  | case3 c hc =>
    intro k _
    simp [wordExt, hc]
  | case4 c d cs hc ih =>
    intro k hk
    simp only [wordExt, if_pos hc]
    match k with
    | 0 =>
      have := hk.1 c (by simp)
      rw [hc] at this
      exact absurd this (by simp)
    | k + 1 =>
      have := ih k (noExtAt_shift hk)
      omega
  | case5 c d cs hc hjd ih =>
    intro k hk
    simp only [wordExt, if_neg hc, if_pos hjd]
    have hj := (Bool.and_eq_true _ _).mp hjd
    match k with
    | 0 =>
      have := hk.2 c d (by simp) (by simp) hj.1
      rw [hj.2] at this
      exact absurd this (by simp)
    | 1 =>
      have := hk.1 d (by simp)
      rw [hj.2] at this
      exact absurd this (by simp)
    | k + 2 =>
      have := ih k (noExtAt_shift (noExtAt_shift hk))
      omega
  | case6 c d cs hc hjd =>
    intro k _
    simp [wordExt, hc, hjd]

/-! ### Scanning across a word-pattern match with no ASCII letters -/

theorem charset_not_alpha {c : Char}
    (h : ((isWordChar c && !c.isAlpha) || isJoiner c) = true) : c.isAlpha = false := by
  rcases Bool.or_eq_true_iff.mp h with h' | h'
  · have := ((Bool.and_eq_true _ _).mp h').2
    simpa using this
  · exact isJoiner_not_alpha h'

theorem charset_head_ne {c : Char}
    (h : ((isWordChar c && !c.isAlpha) || isJoiner c) = true) :
    c ≠ lbrace ∧ c ≠ lbrack ∧ c ≠ 'h' ∧ c ≠ '=' := by
  rcases Bool.or_eq_true_iff.mp h with h' | h'
  · obtain ⟨hw, hna⟩ := (Bool.and_eq_true _ _).mp h'
    have hna' : c.isAlpha = false := by simpa using hna
    refine ⟨isWordChar_of_eq_false_ne hw (by decide),
      isWordChar_of_eq_false_ne hw (by decide), ?_,
      isWordChar_of_eq_false_ne hw (by decide)⟩
    intro hch
    subst hch
    simp at hna'
  · rcases isJoiner_elim h' with h'' | h'' | h'' <;> subst h'' <;>
      exact ⟨by decide, by decide, by decide, by decide⟩

theorem templateMatch_none_of_head {c : Char} {cs : List Char} (h : c ≠ lbrace) :
    templateMatch (c :: cs) = none := by
  cases ht : templateMatch (c :: cs) with
  | none => rfl
  | some n =>
    have := templateMatch_head ht
    simp only [List.head?_cons, Option.some_inj] at this
    exact absurd this h

theorem linkMatch_none_of_head {c : Char} {cs : List Char} (h : c ≠ lbrack) :
    linkMatch (c :: cs) = none := by
  cases ht : linkMatch (c :: cs) with
  | none => rfl
  | some n =>
    have := linkMatch_head ht
    simp only [List.head?_cons, Option.some_inj] at this
    exact absurd this h

theorem urlMatch_none_of_head {c : Char} {cs : List Char} (h : c ≠ 'h') :
    urlMatch (c :: cs) = none := by
  cases ht : urlMatch (c :: cs) with
  | none => rfl
  | some n =>
    have := urlMatch_head ht
    simp only [List.head?_cons, Option.some_inj] at this
    exact absurd this h

theorem endSec_false_of_head {c : Char} {cs : List Char} (h : c ≠ '=') :
    endSec (c :: cs) = false := by
  cases he : endSec (c :: cs) with
  | false => rfl
  | true =>
    have := endSec_head he
    simp only [List.head?_cons, Option.some_inj] at this
    exact absurd this h

theorem scanBody_template {cs : List Char} {n : Nat} (h : templateMatch cs = some n) :
    scanBody cs = ScanOut.skip (cs.drop n) := by
  unfold scanBody
  rw [h]

theorem scanBody_link {cs : List Char} {n : Nat} (h1 : templateMatch cs = none)
    (h : linkMatch cs = some n) : scanBody cs = ScanOut.skip (cs.drop n) := by
  unfold scanBody
  rw [h1, h]

theorem scanBody_url {cs : List Char} {n : Nat} (h1 : templateMatch cs = none)
    (h2 : linkMatch cs = none) (h : urlMatch cs = some n) :
    scanBody cs = ScanOut.skip (cs.drop n) := by
  unfold scanBody
  rw [h1, h2, h]

theorem scanBody_no_word {cs : List Char} (h1 : templateMatch cs = none)
    (h2 : linkMatch cs = none) (h3 : urlMatch cs = none) (h4 : wordMatch cs = none) :
    scanBody cs = fallbackStep cs := by
  unfold scanBody
  rw [h1, h2, h3, h4]

theorem scanBody_word_empty {cs : List Char} {m : Nat} (h1 : templateMatch cs = none)
    (h2 : linkMatch cs = none) (h3 : urlMatch cs = none) (h4 : wordMatch cs = some m)
    (h5 : (normalizeTok (cs.take m)).isEmpty = true) :
    scanBody cs = fallbackStep cs := by
  unfold scanBody
  rw [h1, h2, h3, h4]
  dsimp only
  rw [if_pos h5]

theorem scanBody_word_emit {cs : List Char} {m : Nat} (h1 : templateMatch cs = none)
    (h2 : linkMatch cs = none) (h3 : urlMatch cs = none) (h4 : wordMatch cs = some m)
    (h5 : (normalizeTok (cs.take m)).isEmpty = false) :
    scanBody cs = ScanOut.emit (normalizeTok (cs.take m)) (cs.drop m) := by
  unfold scanBody
  rw [h1, h2, h3, h4]
  dsimp only
  rw [if_neg (by simp [h5])]

theorem fallbackStep_of_head {c : Char} {cs' : List Char} (h : endSec (c :: cs') = false) :
    fallbackStep (c :: cs') =
      (match cs' with
       | [] => ScanOut.stop
       | _ :: _ => ScanOut.skip cs') := by
  unfold fallbackStep
  rw [if_neg (by simp [h])]
  cases cs' with
  | nil => rfl
  | cons d t => rfl

theorem wordMatch_cons_some {c : Char} {cs' : List Char} {m : Nat}
    (h : wordMatch (c :: cs') = some m) :
    isWordChar c = true ∧ m = 1 + wordExt cs' := by
  simp only [wordMatch] at h
  split at h
  · exact ⟨by assumption, by simpa using h.symm⟩
  · exact absurd h (by simp)

theorem mem_take_of_le {α : Type} {l : List α} {a : α} {m n : Nat}
    (h : a ∈ l.take m) (hmn : m ≤ n) : a ∈ l.take n := by
  have e : l.take m = (l.take n).take m := by
    rw [List.take_take, min_eq_left hmn]
  exact List.take_subset _ _ (e ▸ h)

/-- Scanning from a position where the next `n` characters are all
non-alphabetic word characters or joiners, and position `n` cannot be
crossed by a word-pattern step, produces exactly the tokens of
scanning from position `n`: the region contributes no tokens, even
though the cursor crosses it one sub-match or one character at a
time. -/
theorem scanFrom_drop_of_charset : ∀ (k : Nat) (cs : List Char) (n : Nat),
    n ≤ k → 1 ≤ n → n ≤ cs.length →
    (∀ c ∈ cs.take n, ((isWordChar c && !c.isAlpha) || isJoiner c) = true) →
    noExtAt cs n →
    scanFrom cs = scanFrom (cs.drop n) := by
  intro k
  induction k with
  | zero =>
    intro cs n hnk h1 _ _ _
    omega
  | succ k ih =>
    intro cs n hnk h1 hlen hset hnoext
    obtain ⟨m, rfl⟩ : ∃ m, n = m + 1 := ⟨n - 1, by omega⟩
    match cs with
    | [] => simp at hlen
    | c :: cs' =>
      have hc : ((isWordChar c && !c.isAlpha) || isJoiner c) = true := by
        apply hset
        rw [List.take_succ_cons]
        exact List.mem_cons_self _ _
      obtain ⟨hnlb, hnlk, hnh, hneq⟩ := charset_head_ne hc
      have htm : templateMatch (c :: cs') = none := templateMatch_none_of_head hnlb
      have hlk : linkMatch (c :: cs') = none := linkMatch_none_of_head hnlk
      have hur : urlMatch (c :: cs') = none := urlMatch_none_of_head hnh
      have hes : endSec (c :: cs') = false := endSec_false_of_head hneq
      have hbody : scanBody (c :: cs') = fallbackStep (c :: cs') := by
        cases hw : wordMatch (c :: cs') with
        | none => exact scanBody_no_word htm hlk hur hw
        | some mw =>
          obtain ⟨hcw, hmw⟩ := wordMatch_cons_some hw
          have hext : wordExt cs' ≤ m := wordExt_le_of_noExtAt cs' m (noExtAt_shift hnoext)
          have hle : mw ≤ m + 1 := by omega
          have hempty : (normalizeTok ((c :: cs').take mw)).isEmpty = true := by
            have hall : ∀ x ∈ (c :: cs').take mw, ¬(Char.isAlpha x = true) := by
              intro x hx
              have hx' : x ∈ (c :: cs').take (m + 1) := mem_take_of_le hx hle
              simp [charset_not_alpha (hset x hx')]
            unfold normalizeTok
            rw [List.filter_eq_nil_iff.mpr hall]
            rfl
          exact scanBody_word_empty htm hlk hur hw hempty
      cases cs' with
      | nil =>
        have hm0 : m = 0 := by
          simp only [List.length_cons, List.length_nil] at hlen
          omega
        subst hm0
        have hstop : scanStep [c] = ScanOut.stop := by
          show scanBody [c] = ScanOut.stop
          rw [hbody, fallbackStep_of_head hes]
        rw [scanFrom_stop hstop]
        rfl
      | cons d t =>
        have hskip : scanStep (c :: d :: t) = ScanOut.skip (d :: t) := by
          show scanBody (c :: d :: t) = ScanOut.skip (d :: t)
          rw [hbody, fallbackStep_of_head hes]
        rw [scanFrom_skip hskip, List.drop_succ_cons]
        match m with
        | 0 => rfl
        | m' + 1 =>
          apply ih (d :: t) (m' + 1) (by omega) (by omega)
          · simp only [List.length_cons] at hlen ⊢
            omega
          · intro x hx
            apply hset
            rw [List.take_succ_cons]
            exact List.mem_cons_of_mem _ hx
          · exact noExtAt_shift hnoext

theorem noExtAt_cons {c : Char} {cs : List Char} {n : Nat}
    (h : noExtAt cs n) : noExtAt (c :: cs) (n + 1) := by
  obtain ⟨h1, h2⟩ := h
  exact ⟨fun x hx => h1 x (by simpa using hx),
    fun x y hx hy => h2 x y (by simpa using hx) (by simpa using hy)⟩

theorem normalizeTok_isEmpty_elim {l : List Char}
    (h : (normalizeTok l).isEmpty = true) : ∀ x ∈ l, x.isAlpha = false := by
  intro x hx
  unfold normalizeTok at h
  rw [String.isEmpty_iff] at h
  have hdata : ((l.filter Char.isAlpha).map Char.toLower) = [] := by
    have := congrArg String.data h
    simpa using this
  have hfil : l.filter Char.isAlpha = [] := List.map_eq_nil_iff.mp hdata
  have := List.filter_eq_nil_iff.mp hfil x hx
  simpa using this

/-! ### Claim theorems for the markup tokenizer -/

/-- C6: for every input text, a template region `{{...}}` (shortest
match) that the scanning cursor reaches contributes no tokens: the
token stream from the cursor equals the token stream from just past
the whole template match. -/
theorem c6_template_interior_no_tokens (cs : List Char) (n : Nat)
    (h : templateMatch cs = some n) : scanFrom cs = scanFrom (cs.drop n) := by
  match cs with
  | [] => simp [templateMatch] at h
  | c :: cs' => exact scanFrom_skip (scanBody_template h)

theorem c6_witness :
    templateMatch [lbrace, lbrace, 'x', rbrace, rbrace, 'h', 'i'] = some 5 ∧
    scanFrom [lbrace, lbrace, 'x', rbrace, rbrace, 'h', 'i'] = scanFrom ['h', 'i'] :=
  ⟨by decide, c6_template_interior_no_tokens _ 5 (by decide)⟩

/-- C4 counterexample: the loop of `wikitext_words` applies only the
`TEMPLATE`, `LINK` and `URL` patterns as skip rules (the `SKIPS` regex
containing the table-markup and `#REDIRECT` alternatives is defined
but never used by the loop), so a `#REDIRECT` marker at the cursor
contributes the token `redirect`, and a table-markup region
contributes the tokens of its interior — both contradict the claim
that those regions emit no token. -/
theorem c4_counterexample :
    wikitext_words "#REDIRECT" = ["redirect"] ∧
    scanFrom [lbrace, '|', 'x', '|', rbrace] = ["x"] := by
  exact ⟨by decide, by decide⟩

/-- C4 (amended): when the cursor matches one of the three skip rules
the loop actually applies — a template region, a link region, or a URL
— the cursor advances past the whole match and the matched region
emits no token; the table-markup and redirect patterns are not applied
as skip rules. -/
theorem c4_skips_amended (cs : List Char) (n : Nat)
    (h : templateMatch cs = some n ∨ linkMatch cs = some n ∨ urlMatch cs = some n) :
    scanFrom cs = scanFrom (cs.drop n) := by
  match cs with
  | [] =>
    rcases h with h | h | h
    · simp [templateMatch] at h
    · simp [linkMatch] at h
    · simp [urlMatch, dropLit] at h
  | c :: cs' =>
    rcases h with h | h | h
    · exact scanFrom_skip (scanBody_template h)
    · have hc : c = lbrack := by
        have := linkMatch_head h
        simpa using this
      have htm : templateMatch (c :: cs') = none :=
        templateMatch_none_of_head (by rw [hc]; decide)
      exact scanFrom_skip (scanBody_link htm h)
    · have hc : c = 'h' := by
        have := urlMatch_head h
        simpa using this
      have htm : templateMatch (c :: cs') = none :=
        templateMatch_none_of_head (by rw [hc]; decide)
      have hlk : linkMatch (c :: cs') = none :=
        linkMatch_none_of_head (by rw [hc]; decide)
      exact scanFrom_skip (scanBody_url htm hlk h)

theorem c4_witness :
    (templateMatch [lbrack, 'a', rbrack, 'x'] = some 3 ∨
      linkMatch [lbrack, 'a', rbrack, 'x'] = some 3 ∨
      urlMatch [lbrack, 'a', rbrack, 'x'] = some 3) ∧
    scanFrom [lbrack, 'a', rbrack, 'x'] = scanFrom ['x'] :=
  ⟨Or.inr (Or.inl (by decide)),
   c4_skips_amended [lbrack, 'a', rbrack, 'x'] 3 (Or.inr (Or.inl (by decide)))⟩

/-- C7 counterexample: at the input `12` the anchored word pattern
matches the whole two-character text, but the scan step advances the
cursor by only one character (to `2`), not past the whole match (which
would leave the empty cursor): the word branch returns without
advancing when the filtered word is empty, and the one-character
fallback moves the cursor instead. -/
theorem c7_counterexample :
    wordMatch ['1', '2'] = some 2 ∧
    scanStep ['1', '2'] = ScanOut.skip ['2'] ∧
    ScanOut.skip (List.drop 2 ['1', '2']) ≠ ScanOut.skip ['2'] :=
  ⟨by decide, by decide, by decide⟩

/-- C7 (amended): when the word pattern matches at the cursor and no
skip rule fires, a non-empty normalized token is emitted with the
cursor advanced past the whole match; when the normalized token is
empty, no token is emitted and the word branch does not advance the
cursor — the fallback then crosses the match one character at a time —
but the resulting token stream is nevertheless exactly the stream of
scanning from just past the match. -/
theorem c7_word_advance_amended :
    (∀ (cs : List Char) (n : Nat), templateMatch cs = none → linkMatch cs = none →
      urlMatch cs = none → wordMatch cs = some n →
      (normalizeTok (cs.take n)).isEmpty = false →
      scanStep cs = ScanOut.emit (normalizeTok (cs.take n)) (cs.drop n)) ∧
    (∀ (cs : List Char) (n : Nat), wordMatch cs = some n →
      (normalizeTok (cs.take n)).isEmpty = true →
      scanFrom cs = scanFrom (cs.drop n)) := by
  constructor
  · intro cs n h1 h2 h3 h4 h5
    match cs with
    | [] => simp [wordMatch] at h4
    | c :: cs' => exact scanBody_word_emit h1 h2 h3 h4 h5
  · intro cs n h4 h5
    obtain ⟨c, cs', rfl, hcw, hn⟩ := wordMatch_elim h4
    have hne : n ≤ (c :: cs').length := by
      have := wordExt_le cs'
      simp only [List.length_cons]
      omega
    have halpha : ∀ x ∈ (c :: cs').take n, x.isAlpha = false :=
      normalizeTok_isEmpty_elim h5
    apply scanFrom_drop_of_charset n (c :: cs') n le_rfl (by omega) hne
    · intro x hx
      have hxa := halpha x hx
      have he : n = wordExt cs' + 1 := by omega
      rw [he, List.take_succ_cons] at hx
      rcases List.mem_cons.mp hx with h | h
      · subst h
        simp [hcw, hxa]
      · have := wordExt_chars cs' x h
        rcases Bool.or_eq_true_iff.mp this with h' | h'
        · simp [h', hxa]
        · simp [h']
    · have : n = wordExt cs' + 1 := by omega
      rw [this]
      exact noExtAt_cons (wordExt_stop cs')

theorem c7_witness :
    scanStep ['c', 'a', 't', '!'] =
      ScanOut.emit (normalizeTok (['c', 'a', 't', '!'].take 3)) (['c', 'a', 't', '!'].drop 3) ∧
    scanFrom ['1', '2'] = scanFrom (['1', '2'].drop 2) :=
  ⟨c7_word_advance_amended.1 ['c', 'a', 't', '!'] 3
      (by decide) (by decide) (by decide) (by decide) (by decide),
   c7_word_advance_amended.2 ['1', '2'] 2 (by decide) (by decide)⟩

/-- C8: the scan loop of `wikitext_words` is total: each iteration
either ends the scan or advances the cursor by at least one character,
and therefore fuel equal to the text length makes the fuel-driven loop
compute `wikitext_words` — the loop terminates on every finite input
with a finite token list. -/
theorem c8_scan_terminates :
    (∀ cs : List Char, scanStep cs = ScanOut.stop ∨
      ∃ rest, (scanStep cs = ScanOut.skip rest ∨ ∃ w, scanStep cs = ScanOut.emit w rest) ∧
        rest.length + 1 ≤ cs.length) ∧
    (∀ (s : String) (fuel : Nat), s.data.length ≤ fuel →
      scanGo fuel s.data = wikitext_words s) := by
  constructor
  · intro cs
    cases h : scanStep cs with
    | stop => exact Or.inl rfl
    | emit w rest =>
      refine Or.inr ⟨rest, Or.inr ⟨w, rfl⟩, ?_⟩
      have := scanStep_emit_length h
      omega
    | skip rest =>
      refine Or.inr ⟨rest, Or.inl rfl, ?_⟩
      have := scanStep_skip_length h
      omega
  · intro s fuel hf
    exact scanGo_of_le s.data.length s.data fuel le_rfl hf

theorem c8_witness :
    (scanStep ['a'] = ScanOut.stop ∨
      ∃ rest, (scanStep ['a'] = ScanOut.skip rest ∨ ∃ w, scanStep ['a'] = ScanOut.emit w rest) ∧
        rest.length + 1 ≤ (['a'] : List Char).length) ∧
    scanGo 2 "ab".data = wikitext_words "ab" :=
  ⟨c8_scan_terminates.1 ['a'], c8_scan_terminates.2 "ab" 2 (by decide)⟩

/-! ### Word-count tables (`FnvHashMap<String, usize>` modelled as an
association list whose operations mirror the entry API) -/

/-- A word-count table: the hash map `FnvHashMap<String, usize>` of
`main.rs` modelled as an association list of (word, count) pairs. -/
abbrev WordCount : Type := List (String × Nat)

/-- `*acc.entry(k).or_insert(0) += v` : add `v` to the first entry
with key `k` (a hash map holds at most one). -/
def addToFirst : WordCount → String → Nat → WordCount
  | [], _, _ => []
  | p :: rest, k, v =>
    if p.1 = k then (p.1, p.2 + v) :: rest else p :: addToFirst rest k v

/-- The full entry-update: update in place when the key exists, append
a fresh `(k, v)` otherwise (`or_insert(0)` followed by `+= v`). -/
def addEntry (acc : WordCount) (k : String) (v : Nat) : WordCount :=
  if acc.any (fun p => p.1 = k) then addToFirst acc k v else acc ++ [(k, v)]

/-- The reduction combinator of `main.rs` lines 86-91:
`for (k, v) in e { *acc.entry(k).or_insert(0) += v; }` — fold the
entries of `e` into `acc`. -/
def mergeWC (acc e : WordCount) : WordCount :=
  e.foldl (fun a p => addEntry a p.1 p.2) acc

/-- Total count stored for a word (0 when absent; the sum over
matching entries, which for unique keys is the single stored value). -/
def countOf : WordCount → String → Nat
  | [], _ => 0
  | p :: rest, w => (if p.1 = w then p.2 else 0) + countOf rest w

/-- Key membership in a table. -/
def hasKey : WordCount → String → Bool
  | [], _ => false
  | p :: rest, w => (p.1 = w) || hasKey rest w

theorem countOf_addToFirst (acc : WordCount) (k : String) (v : Nat) (w : String) :
    countOf (addToFirst acc k v) w =
      countOf acc w + (if hasKey acc k = true ∧ k = w then v else 0) := by
  induction acc with
  | nil => simp [addToFirst, countOf, hasKey]
  | cons p rest ih =>
    by_cases hp : p.1 = k <;> by_cases hw : k = w <;>
      simp_all [addToFirst, countOf, hasKey] <;> omega

theorem countOf_append_single (acc : WordCount) (k : String) (v : Nat) (w : String) :
    countOf (acc ++ [(k, v)]) w = countOf acc w + (if k = w then v else 0) := by
  induction acc with
  | nil => simp [countOf]
  | cons p rest ih =>
    show (if p.1 = w then p.2 else 0) + countOf (rest ++ [(k, v)]) w = _
    rw [ih]
    simp only [countOf]
    omega

theorem hasKey_iff_any (acc : WordCount) (k : String) :
    hasKey acc k = acc.any (fun p => p.1 = k) := by
  induction acc with
  | nil => rfl
  | cons p rest ih => simp [hasKey, ih]

theorem countOf_addEntry (acc : WordCount) (k : String) (v : Nat) (w : String) :
    countOf (addEntry acc k v) w = countOf acc w + (if k = w then v else 0) := by
  unfold addEntry
  by_cases hany : acc.any (fun p => p.1 = k) = true
  · rw [if_pos hany, countOf_addToFirst, hasKey_iff_any, hany]
    simp
  · rw [if_neg hany, countOf_append_single]

theorem hasKey_addToFirst (acc : WordCount) (k : String) (v : Nat) (w : String) :
    hasKey (addToFirst acc k v) w = hasKey acc w := by
  induction acc with
  | nil => rfl
  | cons p rest ih =>
    by_cases hp : p.1 = k
    · simp [addToFirst, hp, hasKey]
    · simp [addToFirst, hp, hasKey, ih]

theorem hasKey_append_single (acc : WordCount) (k : String) (v : Nat) (w : String) :
    hasKey (acc ++ [(k, v)]) w = (hasKey acc w || decide (k = w)) := by
  induction acc with
  | nil => simp [hasKey]
  | cons p rest ih =>
    show (decide (p.1 = w) || hasKey (rest ++ [(k, v)]) w) = _
    rw [ih]
    show _ = ((decide (p.1 = w) || hasKey rest w) || decide (k = w))
    rw [Bool.or_assoc]

theorem hasKey_addEntry (acc : WordCount) (k : String) (v : Nat) (w : String) :
    hasKey (addEntry acc k v) w = (hasKey acc w || decide (k = w)) := by
  unfold addEntry
  by_cases hany : acc.any (fun p => p.1 = k) = true
  · rw [if_pos hany, hasKey_addToFirst]
    by_cases hkw : k = w
    · subst hkw
      rw [hasKey_iff_any, hany]
      simp
    · simp [hkw]
  · rw [if_neg hany, hasKey_append_single]

theorem countOf_mergeWC (acc e : WordCount) (w : String) :
    countOf (mergeWC acc e) w = countOf acc w + countOf e w := by
  induction e generalizing acc with
  | nil => simp [mergeWC, countOf]
  | cons p rest ih =>
    show countOf (mergeWC (addEntry acc p.1 p.2) rest) w = _
    rw [ih, countOf_addEntry]
    simp only [countOf]
    omega

theorem hasKey_mergeWC (acc e : WordCount) (w : String) :
    hasKey (mergeWC acc e) w = (hasKey acc w || hasKey e w) := by
  induction e generalizing acc with
  | nil => simp [mergeWC, hasKey]
  | cons p rest ih =>
    show hasKey (mergeWC (addEntry acc p.1 p.2) rest) w = _
    rw [ih, hasKey_addEntry]
    simp only [hasKey]
    cases h1 : hasKey acc w <;> cases h2 : hasKey rest w <;> simp

theorem countOf_foldl_mergeWC (Ts : List WordCount) (acc : WordCount) (w : String) :
    countOf (Ts.foldl mergeWC acc) w =
      countOf acc w + (Ts.map (fun t => countOf t w)).sum := by
  induction Ts generalizing acc with
  | nil => simp
  | cons t rest ih =>
    show countOf (rest.foldl mergeWC (mergeWC acc t)) w = _
    rw [ih, countOf_mergeWC]
    simp only [List.map_cons, List.sum_cons]
    omega

/-- C2: the table merge used by the reduction is commutative and
associative up to map equality (same keys, same counts — which is the
equality `FnvHashMap` implements), and reducing any list of local
tables gives, for every word, the sum of that word's counts over the
local tables; with commutativity and associativity this makes the
result independent of reduction order and grouping. -/
theorem c2_merge_comm_assoc_sum :
    (∀ (A B : WordCount) (w : String),
      countOf (mergeWC A B) w = countOf (mergeWC B A) w ∧
      hasKey (mergeWC A B) w = hasKey (mergeWC B A) w) ∧
    (∀ (A B C : WordCount) (w : String),
      countOf (mergeWC (mergeWC A B) C) w = countOf (mergeWC A (mergeWC B C)) w ∧
      hasKey (mergeWC (mergeWC A B) C) w = hasKey (mergeWC A (mergeWC B C)) w) ∧
    (∀ (Ts : List WordCount) (w : String),
      countOf (Ts.foldl mergeWC []) w = (Ts.map (fun t => countOf t w)).sum) := by
  refine ⟨?_, ?_, ?_⟩
  · intro A B w
    constructor
    · rw [countOf_mergeWC, countOf_mergeWC]
      omega
    · rw [hasKey_mergeWC, hasKey_mergeWC, Bool.or_comm]
  · intro A B C w
    constructor
    · rw [countOf_mergeWC, countOf_mergeWC, countOf_mergeWC, countOf_mergeWC]
      omega
    · rw [hasKey_mergeWC, hasKey_mergeWC, hasKey_mergeWC, hasKey_mergeWC, Bool.or_assoc]
  · intro Ts w
    rw [countOf_foldl_mergeWC]
    simp [countOf]

/-! ### The per-block word extractor (`DumpBlock::process`) -/

/-- Fuel-driven model of `WORD_REGEX.find_iter` over a text-node
content: at each position, take the leftmost anchored word match and
continue after it, otherwise move one character right. Fuel equal to
the text length suffices since every step consumes at least one
character. -/
def findGo : Nat → List Char → List (List Char)
  | 0, _ => []
  | _ + 1, [] => []
  | fuel + 1, c :: rest =>
    match wordMatch (c :: rest) with
    | some n => (c :: rest).take n :: findGo fuel ((c :: rest).drop n)
    | none => findGo fuel rest

/-- All matches of the word pattern in a text, left to right,
non-overlapping (the `find_iter` semantics). -/
def findWordTokens (cs : List Char) : List (List Char) := findGo cs.length cs

/-- The per-match body of `DumpBlock::process` (`main.rs` lines
336-348): normalize the match (keep ASCII letters, lowercase); skip
empty results; count the word only when the vocabulary contains it. -/
def processStep (wordset : List String) (counts : WordCount) (tok : List Char) : WordCount :=
  let word := normalizeTok tok
  if word.isEmpty then counts
  else if wordset.contains word then addEntry counts word 1
  else counts

/-- `DumpBlock::process` restricted to one text node's content: scan
the text with the word pattern and fold the per-match body over the
matches, starting from the empty table. (The `roxmltree` document
parse that locates the `<text>` nodes is an external library call; the
claims address the counting on a node's text.) -/
def processText (wordset : List String) (text : List Char) : WordCount :=
  (findWordTokens text).foldl (processStep wordset) []

/-- C3 counterexample: on the body text of end-to-end scenario 1 the
word `dog` gets count 0, not the claimed 1 — `dog-dog's` is a single
match of the word pattern, normalizes to `dogdogs`, and is absent from
the vocabulary, and no other `dog` token exists in the text. -/
theorem c3_counterexample :
    countOf (processText ["cat", "dog"] ("The cat sat. A CAT! dog-dog's").data) "dog" = 0 := by
  decide

/-- C3 (amended): for vocabulary {cat, dog} and body text
`The cat sat. A CAT! dog-dog's`, the local table is exactly
{cat ↦ 2}: `cat` is counted twice (from `cat` and `CAT`), `dog` never
appears as a token (so it is absent, count 0), and `dog-dog's`
tokenizes as the single word `dogdogs`, which is not in the vocabulary
and contributes nothing. -/
theorem c3_scenario_counts :
    processText ["cat", "dog"] ("The cat sat. A CAT! dog-dog's").data = [("cat", 2)] ∧
    countOf (processText ["cat", "dog"] ("The cat sat. A CAT! dog-dog's").data) "cat" = 2 ∧
    hasKey (processText ["cat", "dog"] ("The cat sat. A CAT! dog-dog's").data) "dog" = false := by
  exact ⟨by decide, by decide, by decide⟩

/-! ### The vocabulary/positivity invariant of local tables -/

/-- Every entry of the table has a vocabulary key and a positive
count. -/
def WFtable (vocab : List String) (m : WordCount) : Prop :=
  ∀ p ∈ m, p.1 ∈ vocab ∧ 1 ≤ p.2

theorem mem_addToFirst {acc : WordCount} {k : String} {v : Nat} {p : String × Nat}
    (h : p ∈ addToFirst acc k v) : ∃ q ∈ acc, p = q ∨ (p.1 = q.1 ∧ p.2 = q.2 + v) := by
  induction acc with
  | nil => simp [addToFirst] at h
  | cons q rest ih =>
    by_cases hq : q.1 = k
    · simp only [addToFirst, if_pos hq] at h
      rcases List.mem_cons.mp h with h' | h'
      · exact ⟨q, List.mem_cons_self _ _, Or.inr (by subst h'; exact ⟨rfl, rfl⟩)⟩
      · exact ⟨p, List.mem_cons_of_mem _ h', Or.inl rfl⟩
    · simp only [addToFirst, if_neg hq] at h
      rcases List.mem_cons.mp h with h' | h'
      · exact ⟨q, List.mem_cons_self _ _, Or.inl h'⟩
      · obtain ⟨q', hq', hor⟩ := ih h'
        exact ⟨q', List.mem_cons_of_mem _ hq', hor⟩

theorem WFtable_addEntry {vocab : List String} {acc : WordCount} {k : String} {v : Nat}
    (hwf : WFtable vocab acc) (hk : k ∈ vocab) (hv : 1 ≤ v) :
    WFtable vocab (addEntry acc k v) := by
  intro p hp
  unfold addEntry at hp
  split at hp
  · obtain ⟨q, hq, hor⟩ := mem_addToFirst hp
    rcases hor with h | ⟨h1, h2⟩
    · exact h ▸ hwf q hq
    · obtain ⟨hq1, hq2⟩ := hwf q hq
      exact ⟨h1 ▸ hq1, by omega⟩
  · rcases List.mem_append.mp hp with h | h
    · exact hwf p h
    · have : p = (k, v) := List.mem_singleton.mp h
      subst this
      exact ⟨hk, hv⟩

theorem WFtable_mergeWC {vocab : List String} : ∀ (B A : WordCount),
    WFtable vocab A → WFtable vocab B → WFtable vocab (mergeWC A B) := by
  intro B
  induction B with
  | nil =>
    intro A hA _
    exact hA
  | cons p rest ih =>
    intro A hA hB
    have hp := hB p (List.mem_cons_self _ _)
    have hB' : WFtable vocab rest := fun q hq => hB q (List.mem_cons_of_mem _ hq)
    exact ih (addEntry A p.1 p.2) (WFtable_addEntry hA hp.1 hp.2) hB'

theorem WFtable_processStep {vocab : List String} {acc : WordCount} {tok : List Char}
    (hwf : WFtable vocab acc) : WFtable vocab (processStep vocab acc tok) := by
  unfold processStep
  dsimp only
  split
  · exact hwf
  · split
    · rename_i hcon
      apply WFtable_addEntry hwf _ le_rfl
      simpa using hcon
    · exact hwf

theorem WFtable_processFold {vocab : List String} : ∀ (toks : List (List Char))
    (acc : WordCount), WFtable vocab acc →
    WFtable vocab (toks.foldl (processStep vocab) acc) := by
  intro toks
  induction toks with
  | nil =>
    intro acc hacc
    exact hacc
  | cons t rest ih =>
    intro acc hacc
    exact ih (processStep vocab acc t) (WFtable_processStep hacc)

/-- C10: every local table built by the per-block extractor has only
vocabulary words as keys, each with count at least 1 (a zero count is
never stored), and the reduction merge preserves this invariant, so
the final table satisfies it too. -/
theorem c10_vocab_invariant :
    (∀ (vocab : List String) (text : List Char), WFtable vocab (processText vocab text)) ∧
    (∀ (vocab : List String) (A B : WordCount), WFtable vocab A → WFtable vocab B →
      WFtable vocab (mergeWC A B)) := by
  constructor
  · intro vocab text
    exact WFtable_processFold (findWordTokens text) [] (by intro p hp; simp at hp)
  · intro vocab A B hA hB
    exact WFtable_mergeWC B A hA hB

theorem c10_witness :
    WFtable ["cat"] (processText ["cat"] ("a cat").data) ∧
    WFtable ["cat"] (mergeWC [("cat", 1)] [("cat", 2)]) :=
  ⟨c10_vocab_invariant.1 ["cat"] ("a cat").data,
   c10_vocab_invariant.2 ["cat"] [("cat", 1)] [("cat", 2)]
     (by unfold WFtable; decide) (by unfold WFtable; decide)⟩

/-! ### Output ordering (`counts.sort_unstable_by_key(|&(_, v)| -(v as isize))`
followed by `writeln!(writer, "{} {}", k, v)`) -/

/-- Descending insertion by count: the model of the comparison sort of
`main.rs` line 98. The source sort is unstable, so only sortedness and
the permutation property are specified behaviour; for counts below
`2^63` the Rust key `-(v as isize)` orders exactly by descending `v`. -/
def insertByCount (p : String × Nat) : List (String × Nat) → List (String × Nat)
  | [] => [p]
  | q :: rest => if q.2 < p.2 then p :: q :: rest else q :: insertByCount p rest

/-- Sort the final table's entries by non-increasing count. -/
def sortCounts (l : List (String × Nat)) : List (String × Nat) :=
  l.foldr insertByCount []

/-- One output line `<word> <space> <count>` (`main.rs` line 102). -/
def renderLine (p : String × Nat) : String := p.1 ++ " " ++ toString p.2

theorem insertByCount_perm (p : String × Nat) (l : List (String × Nat)) :
    (insertByCount p l).Perm (p :: l) := by
  induction l with
  | nil => exact List.Perm.refl _
  | cons q rest ih =>
    unfold insertByCount
    split
    · exact List.Perm.refl _
    · exact (List.Perm.cons q ih).trans (List.Perm.swap p q rest)

theorem sortCounts_perm (l : List (String × Nat)) : (sortCounts l).Perm l := by
  induction l with
  | nil => exact List.Perm.refl _
  | cons p rest ih =>
    show (insertByCount p (sortCounts rest)).Perm (p :: rest)
    exact (insertByCount_perm p _).trans (List.Perm.cons p ih)

theorem insertByCount_sorted {p : String × Nat} {l : List (String × Nat)}
    (h : List.Sorted (fun p q : String × Nat => q.2 ≤ p.2) l) :
    List.Sorted (fun p q : String × Nat => q.2 ≤ p.2) (insertByCount p l) := by
  induction l with
  | nil => simp [insertByCount]
  | cons q rest ih =>
    rw [List.sorted_cons] at h
    obtain ⟨hq, hrest⟩ := h
    unfold insertByCount
    split
    · rename_i hlt
      rw [List.sorted_cons]
      refine ⟨?_, ?_⟩
      · intro b hb
        rcases List.mem_cons.mp hb with h' | h'
        · subst h'
          omega
        · have := hq b h'
          omega
      · rw [List.sorted_cons]
        exact ⟨hq, hrest⟩
    · rename_i hge
      rw [List.sorted_cons]
      refine ⟨?_, ih hrest⟩
      intro b hb
      have hb' := (insertByCount_perm p rest).mem_iff.mp hb
      rcases List.mem_cons.mp hb' with h' | h'
      · subst h'
        omega
      · exact hq b h'

theorem sortCounts_sorted (l : List (String × Nat)) :
    List.Sorted (fun p q : String × Nat => q.2 ≤ p.2) (sortCounts l) := by
  induction l with
  | nil => simp [sortCounts]
  | cons p rest ih =>
    show List.Sorted _ (insertByCount p (sortCounts rest))
    exact insertByCount_sorted ih

/-- The final table of the output-file scenario,
{a ↦ 5, the ↦ 5, cat ↦ 2}, in one iteration order. -/
def exTable : WordCount := [("a", 5), ("the", 5), ("cat", 2)]

theorem sorted_perm_exTable (s : List (String × Nat))
    (hs : List.Sorted (fun p q : String × Nat => q.2 ≤ p.2) s)
    (hp : s.Perm exTable) :
    s = [(("a", 5) : String × Nat), ("the", 5), ("cat", 2)] ∨
    s = [(("the", 5) : String × Nat), ("a", 5), ("cat", 2)] := by
  have hlen : s.length = 3 := by simpa [exTable] using hp.length_eq
  match s, hlen with
  | [x, y, z], _ =>
    have hcx : x ∈ exTable := hp.mem_iff.mp (by simp)
    have hcy : y ∈ exTable := hp.mem_iff.mp (by simp)
    have hcz : z ∈ exTable := hp.mem_iff.mp (by simp)
    have h1 : y.2 ≤ x.2 := (List.sorted_cons.mp hs).1 y (by simp)
    have h2 : z.2 ≤ y.2 :=
      (List.sorted_cons.mp (List.sorted_cons.mp hs).2).1 z (by simp)
    have key : ∀ x ∈ exTable, ∀ y ∈ exTable, ∀ z ∈ exTable,
        y.2 ≤ x.2 → z.2 ≤ y.2 → ([x, y, z].Perm exTable) →
        ([x, y, z] = [(("a", 5) : String × Nat), ("the", 5), ("cat", 2)] ∨
         [x, y, z] = [(("the", 5) : String × Nat), ("a", 5), ("cat", 2)]) := by
      decide
    exact key x hcx y hcy z hcz h1 h2 hp

/-- C9: the sorted output is a permutation of the final table (one
line per entry) ordered by non-increasing count, and for the final
counts {a ↦ 5, the ↦ 5, cat ↦ 2} the rendered lines are `a 5`,
`the 5`, `cat 2` in one of the two orders that put both count-5 words
before `cat 2` — whichever iteration order the final hash map hands
to the vector. -/
theorem c9_output_order :
    (∀ l : List (String × Nat),
      List.Sorted (fun p q : String × Nat => q.2 ≤ p.2) (sortCounts l) ∧
      (sortCounts l).Perm l) ∧
    (∀ l : List (String × Nat), l.Perm exTable →
      (sortCounts l).map renderLine = ["a 5", "the 5", "cat 2"] ∨
      (sortCounts l).map renderLine = ["the 5", "a 5", "cat 2"]) := by
  constructor
  · intro l
    exact ⟨sortCounts_sorted l, sortCounts_perm l⟩
  · intro l hl
    have hperm : (sortCounts l).Perm exTable := (sortCounts_perm l).trans hl
    rcases sorted_perm_exTable _ (sortCounts_sorted l) hperm with h | h
    · left
      rw [h]
      decide
    · right
      rw [h]
      decide

theorem c9_witness :
    (sortCounts exTable).map renderLine = ["a 5", "the 5", "cat 2"] ∨
    (sortCounts exTable).map renderLine = ["the 5", "a 5", "cat 2"] :=
  c9_output_order.2 exTable (by decide)

/-! ### Index-line parsing and the article block iterator
(`ArticleDescriptor::from_index_line`, `ArticleBlockIter::next`) -/

/-- Decimal digit parse: non-empty all-digit strings only. -/
def parseNatDigits (cs : List Char) : Option Nat :=
  if cs.isEmpty then none
  else if cs.all Char.isDigit then
    some (cs.foldl (fun a c => a * 10 + (c.toNat - '0'.toNat)) 0)
  else none

/-- `str::parse::<u64>` (and `usize` on a 64-bit target): an optional
leading plus sign, then at least one digit, value below `2^64`. -/
def parseU64 (cs : List Char) : Option Nat :=
  let ds := match cs with
    | '+' :: rest => rest
    | _ => cs
  match parseNatDigits ds with
  | some v => if v < 2 ^ 64 then some v else none
  | none => none

/-- `find_nth(s, ':', n)` of `main.rs` lines 163-180: the index of the
`n`-th occurrence of the character (1-based); `n = 0` gives `None`. -/
def findNth (cs : List Char) (ch : Char) (n : Nat) : Option Nat :=
  if n = 0 then none
  else ((cs.enum.filter (fun p => p.2 = ch)).map (fun p => p.1)).get? (n - 1)

/-- One index line's parsed fields (`main.rs` lines 362-367). `offset`
is the `u64` byte position, `id` the `usize` article id. -/
structure ArticleDescriptor where
  offset : Nat
  id : Nat
  title : String
deriving DecidableEq

/-- `ArticleDescriptor::from_index_line` (`main.rs` lines 370-379):
split at the first two colons; parse the offset and id fields; the
remainder of the line is the title. Any missing colon or failed
numeric parse panics in the source — modelled as `none`. -/
def from_index_line (cs : List Char) : Option ArticleDescriptor :=
  match findNth cs ':' 1, findNth cs ':' 2 with
  | some i1, some i2 =>
    match parseU64 (cs.take i1), parseU64 ((cs.drop (i1 + 1)).take (i2 - i1 - 1)) with
    | some off, some ident => some ⟨off, ident, String.mk (cs.drop (i2 + 1))⟩
    | _, _ => none
  | _, _ => none

/-- `str::trim` (whitespace from both ends; the source trims each
index line before parsing it). -/
def trimS (s : String) : List Char :=
  ((s.data.dropWhile Char.isWhitespace).reverse.dropWhile Char.isWhitespace).reverse

/-- Parse one raw index line as the iterator does:
`ArticleDescriptor::from_index_line(line.trim())`. -/
def parseDescriptor (line : String) : Option ArticleDescriptor :=
  from_index_line (trimS line)

/-- The iterator's state: the one-line lookahead buffer (`line_buf`,
`none` when empty) and the remaining index lines. The bzip-decoded
index stream is modelled as the list of lines it yields. -/
structure IterState where
  buf : Option String
  lines : List String
deriving DecidableEq

/-- The read loop of `ArticleBlockIter::next` (`main.rs` lines
239-261): read lines until end of stream or an offset change; an
offset change buffers the line for the next call; pushing a 101st
descriptor panics (`none`); a parse failure panics (`none`). Returns
the finished group, the buffered line, and the unread lines. -/
def readGroup : List ArticleDescriptor → List String →
    Option (List ArticleDescriptor × Option String × List String)
  | descs, [] => some (descs, none, [])
  | descs, line :: rest =>
    match parseDescriptor line with
    | none => none
    | some d =>
      let stop : Bool := match descs.getLast? with
        | some last => d.offset != last.offset
        | none => false
      if stop then some (descs, some line, rest)
      else
        let descs2 := descs ++ [d]
        if descs2.length > 100 then none
        else readGroup descs2 rest

/-- The tail of `next` after the read loop: an empty group means the
index is exhausted (`None` from the iterator, graceful end); otherwise
the group becomes a block. (The seek + bzip decompression of the
block's bytes is external I/O and carries no information the claims
need beyond the descriptor group itself.) -/
def finishNext (r : Option (List ArticleDescriptor × Option String × List String)) :
    Option (Option (List ArticleDescriptor × IterState)) :=
  match r with
  | none => none
  | some (descs, b2, r2) =>
    if descs.isEmpty then some none else some (some (descs, ⟨b2, r2⟩))

/-- `ArticleBlockIter::next` (`main.rs` lines 231-288): parse a
buffered line into a fresh group if present, run the read loop,
then finish. Outer `none` = panic (fatal); `some none` = iterator
exhausted; `some (some (block, s2))` = one block produced. -/
def iterNext (s : IterState) : Option (Option (List ArticleDescriptor × IterState)) :=
  match s.buf with
  | some l =>
    match parseDescriptor l with
    | none => none
    | some d => finishNext (readGroup [d] s.lines)
  | none => finishNext (readGroup [] s.lines)

/-- Number of pending lines (buffered plus unread): an upper bound on
the number of blocks the iterator can still produce. -/
def blocksMeasure (s : IterState) : Nat :=
  (match s.buf with
   | some _ => 1
   | none => 0) + s.lines.length

/-- Drive the iterator to completion, collecting the emitted blocks'
descriptor groups; `none` when any call is fatal. Fuel above
`blocksMeasure` always suffices since every block consumes at least
one pending line. -/
def runIter : Nat → IterState → Option (List (List ArticleDescriptor))
  | 0, _ => none
  | fuel + 1, s =>
    match iterNext s with
    | none => none
    | some none => some []
    | some (some (b, s2)) => (runIter fuel s2).map (fun bs => b :: bs)

/-- The full sequence of blocks emitted by `ArticleBlockIter` from an
initial state with the given index lines. -/
def allBlocks (s : IterState) : Option (List (List ArticleDescriptor)) :=
  runIter (blocksMeasure s + 1) s

/-- Decidable form of "every maximal run of equal-offset descriptors
has at most 100 elements": from every position, the run of descriptors
sharing that position's offset is at most 100 long. -/
def runsOK : List ArticleDescriptor → Bool
  | [] => true
  | d :: ds => ((ds.takeWhile (fun e => e.offset == d.offset)).length + 1 ≤ 100) && runsOK ds

/-- The descriptors a state still holds: buffered line first, then the
unread lines, each parsed. -/
def dsOf (s : IterState) : List ArticleDescriptor :=
  (s.buf.toList ++ s.lines).filterMap parseDescriptor

/-- Every pending line of the state parses. -/
def parseOK (s : IterState) : Prop :=
  ∀ l ∈ s.buf.toList ++ s.lines, (parseDescriptor l).isSome = true

theorem filterMap_length_of_isSome {α β : Type} (f : α → Option β) :
    ∀ ls : List α, (∀ l ∈ ls, (f l).isSome = true) →
    (ls.filterMap f).length = ls.length := by
  intro ls
  induction ls with
  | nil => simp
  | cons a rest ih =>
    intro h
    obtain ⟨b, hb⟩ := Option.isSome_iff_exists.mp (h a (List.mem_cons_self _ _))
    rw [List.filterMap_cons, hb]
    simp only [List.length_cons]
    rw [ih (fun l hl => h l (List.mem_cons_of_mem _ hl))]

theorem filterMap_drop_of_isSome {α β : Type} (f : α → Option β) :
    ∀ (ls : List α) (k : Nat), (∀ l ∈ ls, (f l).isSome = true) →
    (ls.drop k).filterMap f = (ls.filterMap f).drop k := by
  intro ls
  induction ls with
  | nil => intro k _; simp
  | cons a rest ih =>
    intro k h
    match k with
    | 0 => simp
    | k + 1 =>
      obtain ⟨b, hb⟩ := Option.isSome_iff_exists.mp (h a (List.mem_cons_self _ _))
      rw [List.drop_succ_cons, List.filterMap_cons, hb, List.drop_succ_cons]
      exact ih k (fun l hl => h l (List.mem_cons_of_mem _ hl))

theorem headToList_drop (ls : List String) (k : Nat) :
    ((ls.drop k).head?).toList ++ ls.drop (k + 1) = ls.drop k := by
  have hd : ls.drop (k + 1) = (ls.drop k).drop 1 := by
    rw [List.drop_drop, Nat.add_comm]
  cases h : ls.drop k with
  | nil => simp [hd, h]
  | cons x xs => simp [hd, h]

theorem runsOK_tail {d : ArticleDescriptor} {ds : List ArticleDescriptor}
    (h : runsOK (d :: ds) = true) : runsOK ds = true := by
  simp only [runsOK, Bool.and_eq_true] at h
  exact h.2

theorem runsOK_head {d : ArticleDescriptor} {ds : List ArticleDescriptor}
    (h : runsOK (d :: ds) = true) :
    (ds.takeWhile (fun e => e.offset == d.offset)).length + 1 ≤ 100 := by
  simp only [runsOK, Bool.and_eq_true, decide_eq_true_eq] at h
  exact h.1

theorem runsOK_drop {ds : List ArticleDescriptor} (h : runsOK ds = true) :
    ∀ k, runsOK (ds.drop k) = true := by
  induction ds with
  | nil => intro k; simp [runsOK]
  | cons d rest ih =>
    intro k
    match k with
    | 0 => exact h
    | k + 1 =>
      rw [List.drop_succ_cons]
      exact ih (runsOK_tail h) k

theorem head_dropWhile_false {α : Type} (p : α → Bool) :
    ∀ (l : List α) (x : α), (l.dropWhile p).head? = some x → p x = false := by
  intro l
  induction l with
  | nil => intro x hx; simp at hx
  | cons a rest ih =>
    intro x hx
    rw [List.dropWhile_cons] at hx
    split at hx
    · exact ih x hx
    · simp only [List.head?_cons, Option.some_inj] at hx
      subst hx
      rename_i ha
      simpa using ha

theorem dropWhile_eq_drop_length {α : Type} (p : α → Bool) (l : List α) :
    l.dropWhile p = l.drop (l.takeWhile p).length := by
  have h := @List.takeWhile_append_dropWhile _ p l
  calc l.dropWhile p
      = (l.takeWhile p ++ l.dropWhile p).drop (l.takeWhile p).length := by
        rw [List.drop_left]
    _ = l.drop (l.takeWhile p).length := by rw [h]

theorem readGroup_cons_stop {descs : List ArticleDescriptor} {line : String}
    {rest : List String} {d last : ArticleDescriptor}
    (hparse : parseDescriptor line = some d) (hlast : descs.getLast? = some last)
    (hne : d.offset ≠ last.offset) :
    readGroup descs (line :: rest) = some (descs, some line, rest) := by
  simp only [readGroup, hparse, hlast]
  rw [if_pos (by simpa using hne)]

theorem readGroup_cons_go {descs : List ArticleDescriptor} {line : String}
    {rest : List String} {d : ArticleDescriptor}
    (hparse : parseDescriptor line = some d)
    (hstop : (match descs.getLast? with
              | some last => d.offset != last.offset
              | none => false) = false)
    (hlen : descs.length + 1 ≤ 100) :
    readGroup descs (line :: rest) = readGroup (descs ++ [d]) rest := by
  simp only [readGroup, hparse]
  rw [hstop]
  have hlen2 : ¬((descs ++ [d]).length > 100) := by
    simp only [List.length_append, List.length_cons, List.length_nil]
    omega
  rw [if_neg (by simp), if_neg hlen2]

theorem readGroup_spec_ok : ∀ (lines : List String) (descs : List ArticleDescriptor)
    (o : Nat),
    (∀ l ∈ lines, (parseDescriptor l).isSome = true) →
    descs ≠ [] → (∀ d ∈ descs, d.offset = o) →
    descs.length +
      ((lines.filterMap parseDescriptor).takeWhile (fun e => e.offset == o)).length ≤ 100 →
    readGroup descs lines =
      some (descs ++ (lines.filterMap parseDescriptor).takeWhile (fun e => e.offset == o),
        (lines.drop
          ((lines.filterMap parseDescriptor).takeWhile (fun e => e.offset == o)).length).head?,
        lines.drop
          (((lines.filterMap parseDescriptor).takeWhile (fun e => e.offset == o)).length + 1)) := by
  intro lines
  induction lines with
  | nil =>
    intro descs o _ _ _ _
    simp [readGroup]
  | cons line rest ih =>
    intro descs o hp hne hall hbound
    obtain ⟨d, hd⟩ := Option.isSome_iff_exists.mp (hp line (List.mem_cons_self _ _))
    have hp' : ∀ l ∈ rest, (parseDescriptor l).isSome = true :=
      fun l hl => hp l (List.mem_cons_of_mem _ hl)
    obtain ⟨last, hlast⟩ : ∃ last, descs.getLast? = some last := by
      cases hg : descs.getLast? with
      | none => exact absurd (List.getLast?_eq_none_iff.mp hg) hne
      | some last => exact ⟨last, rfl⟩
    have hlo : last.offset = o := hall last (List.mem_of_mem_getLast? hlast)
    rw [List.filterMap_cons_some hd]
    rw [List.filterMap_cons_some hd] at hbound
    by_cases hdo : d.offset = o
    · have htw : (d :: rest.filterMap parseDescriptor).takeWhile (fun e => e.offset == o) =
          d :: (rest.filterMap parseDescriptor).takeWhile (fun e => e.offset == o) :=
        List.takeWhile_cons_of_pos (by simpa using hdo)
      rw [htw]
      rw [htw] at hbound
      simp only [List.length_cons] at hbound
      have hgo : readGroup descs (line :: rest) = readGroup (descs ++ [d]) rest := by
        apply readGroup_cons_go hd
        · rw [hlast]
          simp [hdo, hlo]
        · omega
      rw [hgo]
      rw [ih (descs ++ [d]) o hp' (by simp)
        (by
          intro x hx
          rcases List.mem_append.mp hx with h | h
          · exact hall x h
          · rw [List.mem_singleton.mp h]
            exact hdo)
        (by
          simp only [List.length_append, List.length_cons, List.length_nil]
          omega)]
      simp only [List.length_cons, List.drop_succ_cons]
      rw [← List.append_cons]
    · have htw : (d :: rest.filterMap parseDescriptor).takeWhile (fun e => e.offset == o) =
          [] :=
        List.takeWhile_cons_of_neg (by simpa using hdo)
      rw [htw]
      have hne2 : d.offset ≠ last.offset := by
        rw [hlo]
        exact hdo
      rw [readGroup_cons_stop hd hlast hne2]
      simp

theorem takeWhile_length_le {α : Type} (p : α → Bool) (l : List α) :
    (l.takeWhile p).length ≤ l.length := by
  have h := congrArg List.length (@List.takeWhile_append_dropWhile _ p l)
  rw [List.length_append] at h
  omega

theorem measure_of_buf_lines (b2 : Option String) (r2 : List String) :
    blocksMeasure ⟨b2, r2⟩ = (b2.toList ++ r2).length := by
  cases b2 with
  | none => simp [blocksMeasure]
  | some l => simp [blocksMeasure, Nat.add_comm]

theorem iterNext_shape (s : IterState) (hp : parseOK s) (hm : 1 ≤ blocksMeasure s) :
    ∃ (d0 : ArticleDescriptor) (lines2 : List String),
      dsOf s = d0 :: lines2.filterMap parseDescriptor ∧
      blocksMeasure s = 1 + lines2.length ∧
      (∀ l ∈ lines2, (parseDescriptor l).isSome = true) ∧
      iterNext s = finishNext (readGroup [d0] lines2) := by
  match s with
  | ⟨some l, lines⟩ =>
    obtain ⟨d0, hd0⟩ := Option.isSome_iff_exists.mp (hp l (by simp))
    refine ⟨d0, lines, ?_, ?_, ?_, ?_⟩
    · show ((some l).toList ++ lines).filterMap parseDescriptor = _
      show (l :: lines).filterMap parseDescriptor = _
      rw [List.filterMap_cons_some hd0]
    · simp [blocksMeasure]
    · intro x hx
      exact hp x (by simp [hx])
    · show iterNext ⟨some l, lines⟩ = _
      simp only [iterNext, hd0]
  | ⟨none, lines⟩ =>
    match lines with
    | [] => simp [blocksMeasure] at hm
    | l0 :: rest0 =>
      obtain ⟨d0, hd0⟩ := Option.isSome_iff_exists.mp (hp l0 (by simp))
      refine ⟨d0, rest0, ?_, ?_, ?_, ?_⟩
      · show (l0 :: rest0).filterMap parseDescriptor = _
        rw [List.filterMap_cons_some hd0]
      · simp [blocksMeasure]
        omega
      · intro x hx
        exact hp x (by simp [hx])
      · show finishNext (readGroup [] (l0 :: rest0)) = _
        have hgo : readGroup [] (l0 :: rest0) = readGroup [d0] rest0 := by
          have h := @readGroup_cons_go [] l0 rest0 d0 hd0 rfl (by simp)
          simpa using h
        rw [hgo]

theorem runIter_done {s : IterState} (h0 : blocksMeasure s = 0) :
    ∀ fuel, 0 < fuel → runIter fuel s = some [] ∧ dsOf s = [] := by
  match s with
  | ⟨buf, lines⟩ =>
    have hbuf : buf = none := by
      cases buf with
      | none => rfl
      | some l => simp [blocksMeasure] at h0
    have hlines : lines = [] := by
      cases lines with
      | nil => rfl
      | cons a r => simp [blocksMeasure] at h0
    subst hbuf
    subst hlines
    intro fuel hf
    obtain ⟨f, rfl⟩ : ∃ f, fuel = f + 1 := ⟨fuel - 1, by omega⟩
    exact ⟨rfl, rfl⟩

theorem runIter_spec : ∀ (n : Nat) (s : IterState) (fuel : Nat),
    blocksMeasure s ≤ n → blocksMeasure s < fuel →
    parseOK s → runsOK (dsOf s) = true →
    ∃ bs, runIter fuel s = some bs ∧
      bs.join = dsOf s ∧
      (∀ b ∈ bs, b ≠ []) ∧
      (∀ b ∈ bs, ∀ d1 ∈ b, ∀ d2 ∈ b, d1.offset = d2.offset) ∧
      List.Chain' (fun b1 b2 => ∀ d1 d2, b1.getLast? = some d1 → b2.head? = some d2 →
        d1.offset ≠ d2.offset) bs := by
  intro n
  induction n with
  | zero =>
    intro s fuel h1 h2 hp hruns
    have h0 : blocksMeasure s = 0 := by omega
    obtain ⟨hrun, hds⟩ := runIter_done h0 fuel (by omega)
    exact ⟨[], hrun, by simp [hds], by simp, by simp, by simp⟩
  | succ n ih =>
    intro s fuel h1 h2 hp hruns
    by_cases h0 : blocksMeasure s = 0
    · obtain ⟨hrun, hds⟩ := runIter_done h0 fuel (by omega)
      exact ⟨[], hrun, by simp [hds], by simp, by simp, by simp⟩
    · obtain ⟨d0, lines2, hds, hm, hp2, hnext⟩ := iterNext_shape s hp (by omega)
      rw [hds] at hruns
      have hbound :
          ((lines2.filterMap parseDescriptor).takeWhile
            (fun e => e.offset == d0.offset)).length + 1 ≤ 100 := runsOK_head hruns
      have hrg := readGroup_spec_ok lines2 [d0] d0.offset hp2 (by simp)
        (by simp)
        (by simp only [List.length_cons, List.length_nil]; omega)
      rw [hrg] at hnext
      have hnext2 : iterNext s = some (some
          (d0 :: (lines2.filterMap parseDescriptor).takeWhile
              (fun e => e.offset == d0.offset),
           ⟨(lines2.drop
               ((lines2.filterMap parseDescriptor).takeWhile
                 (fun e => e.offset == d0.offset)).length).head?,
             lines2.drop
               (((lines2.filterMap parseDescriptor).takeWhile
                 (fun e => e.offset == d0.offset)).length + 1)⟩)) := by
        rw [hnext]
        simp [finishNext]
      obtain ⟨f, rfl⟩ : ∃ f, fuel = f + 1 := ⟨fuel - 1, by omega⟩
      have hb2r2 : ((lines2.drop
            ((lines2.filterMap parseDescriptor).takeWhile
              (fun e => e.offset == d0.offset)).length).head?).toList ++
          lines2.drop
            (((lines2.filterMap parseDescriptor).takeWhile
              (fun e => e.offset == d0.offset)).length + 1) =
          lines2.drop
            ((lines2.filterMap parseDescriptor).takeWhile
              (fun e => e.offset == d0.offset)).length :=
        headToList_drop lines2 _
      have hm2 : blocksMeasure ⟨(lines2.drop
            ((lines2.filterMap parseDescriptor).takeWhile
              (fun e => e.offset == d0.offset)).length).head?,
          lines2.drop
            (((lines2.filterMap parseDescriptor).takeWhile
              (fun e => e.offset == d0.offset)).length + 1)⟩ =
          lines2.length -
            ((lines2.filterMap parseDescriptor).takeWhile
              (fun e => e.offset == d0.offset)).length := by
        rw [measure_of_buf_lines, hb2r2, List.length_drop]
      have hp2' : parseOK ⟨(lines2.drop
            ((lines2.filterMap parseDescriptor).takeWhile
              (fun e => e.offset == d0.offset)).length).head?,
          lines2.drop
            (((lines2.filterMap parseDescriptor).takeWhile
              (fun e => e.offset == d0.offset)).length + 1)⟩ := by
        intro l hl
        exact hp2 l (List.drop_subset _ _ (hb2r2 ▸ hl))
      have hds2 : dsOf ⟨(lines2.drop
            ((lines2.filterMap parseDescriptor).takeWhile
              (fun e => e.offset == d0.offset)).length).head?,
          lines2.drop
            (((lines2.filterMap parseDescriptor).takeWhile
              (fun e => e.offset == d0.offset)).length + 1)⟩ =
          (lines2.filterMap parseDescriptor).dropWhile
            (fun e => e.offset == d0.offset) := by
        show List.filterMap parseDescriptor (_ ++ _) = _
        rw [hb2r2, filterMap_drop_of_isSome parseDescriptor lines2 _ hp2,
          ← dropWhile_eq_drop_length]
      have hruns2 : runsOK (dsOf ⟨(lines2.drop
            ((lines2.filterMap parseDescriptor).takeWhile
              (fun e => e.offset == d0.offset)).length).head?,
          lines2.drop
            (((lines2.filterMap parseDescriptor).takeWhile
              (fun e => e.offset == d0.offset)).length + 1)⟩) = true := by
        rw [hds2, dropWhile_eq_drop_length]
        exact runsOK_drop (runsOK_tail hruns) _
      have hrunle : ((lines2.filterMap parseDescriptor).takeWhile
            (fun e => e.offset == d0.offset)).length ≤ lines2.length := by
        have h1' := takeWhile_length_le (fun (e : ArticleDescriptor) => e.offset == d0.offset)
          (lines2.filterMap parseDescriptor)
        have h2' := filterMap_length_of_isSome parseDescriptor lines2 hp2
        omega
      obtain ⟨bs', hrun', hjoin', hne', hsame', hchain'⟩ :=
        ih ⟨(lines2.drop
            ((lines2.filterMap parseDescriptor).takeWhile
              (fun e => e.offset == d0.offset)).length).head?,
          lines2.drop
            (((lines2.filterMap parseDescriptor).takeWhile
              (fun e => e.offset == d0.offset)).length + 1)⟩ f
          (by omega) (by omega) hp2' hruns2
      refine ⟨(d0 :: (lines2.filterMap parseDescriptor).takeWhile
          (fun e => e.offset == d0.offset)) :: bs', ?_, ?_, ?_, ?_, ?_⟩
      · show runIter (f + 1) s = _
        simp only [runIter, hnext2, hrun', Option.map_some']
      · show (d0 :: (lines2.filterMap parseDescriptor).takeWhile
            (fun e => e.offset == d0.offset)) ++ bs'.join = dsOf s
        rw [hjoin', hds, hds2]
        show d0 :: (_ ++ _) = _
        rw [@List.takeWhile_append_dropWhile _
          (fun (e : ArticleDescriptor) => e.offset == d0.offset)
          (lines2.filterMap parseDescriptor)]
      · intro b hb
        rcases List.mem_cons.mp hb with h | h
        · subst h
          simp
        · exact hne' b h
      · intro b hb d1 hd1 d2 hd2
        rcases List.mem_cons.mp hb with h | h
        · subst h
          have key : ∀ x ∈ d0 :: (lines2.filterMap parseDescriptor).takeWhile
              (fun e => e.offset == d0.offset), x.offset = d0.offset := by
            intro x hx
            rcases List.mem_cons.mp hx with h' | h'
            · rw [h']
            · simpa using List.mem_takeWhile_imp h'
          rw [key d1 hd1, key d2 hd2]
        · exact hsame' b h d1 hd1 d2 hd2
      · rw [List.chain'_cons']
        refine ⟨?_, hchain'⟩
        intro b2' hb2' d1 d2 hd1 hd2
        have hd1o : d1.offset = d0.offset := by
          have hmem : d1 ∈ d0 :: (lines2.filterMap parseDescriptor).takeWhile
              (fun e => e.offset == d0.offset) := List.mem_of_mem_getLast? hd1
          rcases List.mem_cons.mp hmem with h' | h'
          · rw [h']
          · simpa using List.mem_takeWhile_imp h'
        obtain ⟨tail', hbs'⟩ : ∃ t, bs' = b2' :: t := by
          cases bs' with
          | nil => simp at hb2'
          | cons x t =>
            simp only [List.head?_cons, Option.mem_def, Option.some_inj] at hb2'
            exact ⟨t, by rw [hb2']⟩
        have hjoin2 : b2' ++ tail'.join =
            (lines2.filterMap parseDescriptor).dropWhile
              (fun e => e.offset == d0.offset) := by
          rw [← hds2, ← hjoin', hbs']
          rfl
        have hhead : ((lines2.filterMap parseDescriptor).dropWhile
            (fun e => e.offset == d0.offset)).head? = some d2 := by
          rw [← hjoin2]
          have hb2ne : b2' ≠ [] := hne' b2' (by rw [hbs']; exact List.mem_cons_self _ _)
          cases b2' with
          | nil => exact absurd rfl hb2ne
          | cons x xs => simpa using hd2
        have hpred := head_dropWhile_false _ (lines2.filterMap parseDescriptor) d2 hhead
        have hd2o : d2.offset ≠ d0.offset := by simpa using hpred
        intro heq
        exact hd2o (heq ▸ hd1o)

theorem readGroup_cons_fatal {descs : List ArticleDescriptor} {line : String}
    {rest : List String} {d : ArticleDescriptor}
    (hparse : parseDescriptor line = some d)
    (hstop : (match descs.getLast? with
              | some last => d.offset != last.offset
              | none => false) = false)
    (hlen : 100 < descs.length + 1) :
    readGroup descs (line :: rest) = none := by
  simp only [readGroup, hparse]
  rw [hstop]
  have hlen2 : (descs ++ [d]).length > 100 := by
    simp only [List.length_append, List.length_cons, List.length_nil]
    omega
  rw [if_neg (by simp), if_pos hlen2]

theorem readGroup_replicate : ∀ (m : Nat) (descs : List ArticleDescriptor),
    descs ≠ [] → (∀ x ∈ descs, x.offset = 100) → descs.length ≤ 100 →
    readGroup descs (List.replicate m "100:1:Alpha") =
      (if descs.length + m ≤ 100 then
        some (descs ++ List.replicate m ⟨100, 1, "Alpha"⟩, none, [])
      else none) := by
  have hparse : parseDescriptor "100:1:Alpha" = some ⟨100, 1, "Alpha"⟩ := by decide
  intro m
  induction m with
  | zero =>
    intro descs hne hall hle
    rw [if_pos (by omega)]
    simp [readGroup]
  | succ m ih =>
    intro descs hne hall hle
    rw [List.replicate_succ]
    obtain ⟨last, hlast⟩ : ∃ last, descs.getLast? = some last := by
      cases hg : descs.getLast? with
      | none => exact absurd (List.getLast?_eq_none_iff.mp hg) hne
      | some last => exact ⟨last, rfl⟩
    have hlo : last.offset = 100 := hall last (List.mem_of_mem_getLast? hlast)
    have hstop : (match descs.getLast? with
        | some last => (⟨100, 1, "Alpha"⟩ : ArticleDescriptor).offset != last.offset
        | none => false) = false := by
      rw [hlast]
      simp [hlo]
    by_cases hcap : descs.length + 1 ≤ 100
    · rw [readGroup_cons_go hparse hstop hcap]
      have ihx := ih (descs ++ [(⟨100, 1, "Alpha"⟩ : ArticleDescriptor)]) (by simp)
        (by
          intro x hx
          rcases List.mem_append.mp hx with h | h
          · exact hall x h
          · rw [List.mem_singleton.mp h])
        (by simp only [List.length_append, List.length_cons, List.length_nil]; omega)
      rw [ihx]
      simp only [List.length_append, List.length_cons, List.length_nil]
      by_cases hc : descs.length + (m + 1) ≤ 100
      · rw [if_pos (by omega), if_pos hc]
        rw [← List.append_cons, ← List.replicate_succ]
      · rw [if_neg (by omega), if_neg hc]
    · rw [readGroup_cons_fatal hparse hstop (by omega)]
      rw [if_neg (by omega)]

/-- C5: for a same-offset index run fed to `ArticleBlockIter::next`, a
group of up to 100 descriptors (in particular exactly 100) is produced
as one block, and any run that would accumulate more than 100
descriptors in the group — in particular 101 lines — trips the
`added more than 100 descriptors per block` panic: the call is fatal. -/
theorem c5_descriptor_guard :
    (∀ n : Nat, 1 ≤ n → n ≤ 100 →
      iterNext ⟨none, List.replicate n "100:1:Alpha"⟩ =
        some (some (List.replicate n ⟨100, 1, "Alpha"⟩, ⟨none, []⟩))) ∧
    (∀ n : Nat, 100 < n →
      iterNext ⟨none, List.replicate n "100:1:Alpha"⟩ = none) := by
  have hparse : parseDescriptor "100:1:Alpha" = some ⟨100, 1, "Alpha"⟩ := by decide
  have hstart : ∀ m : Nat, readGroup [] (List.replicate (m + 1) "100:1:Alpha") =
      readGroup [⟨100, 1, "Alpha"⟩] (List.replicate m "100:1:Alpha") := by
    intro m
    rw [List.replicate_succ]
    have h := @readGroup_cons_go [] "100:1:Alpha" (List.replicate m "100:1:Alpha")
      ⟨100, 1, "Alpha"⟩ hparse rfl (by simp)
    simpa using h
  constructor
  · intro n h1 h100
    obtain ⟨m, rfl⟩ : ∃ m, n = m + 1 := ⟨n - 1, by omega⟩
    show finishNext (readGroup [] (List.replicate (m + 1) "100:1:Alpha")) = _
    rw [hstart m]
    rw [readGroup_replicate m [⟨100, 1, "Alpha"⟩] (by simp) (by simp) (by simp)]
    rw [if_pos (by simp only [List.length_cons, List.length_nil]; omega)]
    show finishNext (some ((⟨100, 1, "Alpha"⟩ : ArticleDescriptor) ::
      List.replicate m ⟨100, 1, "Alpha"⟩, none, [])) = _
    rw [← List.replicate_succ]
    simp [finishNext]
  · intro n h100
    obtain ⟨m, rfl⟩ : ∃ m, n = m + 1 := ⟨n - 1, by omega⟩
    show finishNext (readGroup [] (List.replicate (m + 1) "100:1:Alpha")) = _
    rw [hstart m]
    rw [readGroup_replicate m [⟨100, 1, "Alpha"⟩] (by simp) (by simp) (by simp)]
    rw [if_neg (by simp only [List.length_cons, List.length_nil]; omega)]
    rfl

theorem c5_witness :
    iterNext ⟨none, List.replicate 100 "100:1:Alpha"⟩ =
      some (some (List.replicate 100 ⟨100, 1, "Alpha"⟩, ⟨none, []⟩)) ∧
    iterNext ⟨none, List.replicate 101 "100:1:Alpha"⟩ = none :=
  ⟨c5_descriptor_guard.1 100 (by decide) (by decide),
   c5_descriptor_guard.2 101 (by decide)⟩

/-- C1 counterexample: 101 copies of the index line `100:1:Alpha` form
a valid index input in the claim's sense — every line parses as
`<offset>:<id>:<title>` — yet the iterator aborts the run (the
descriptor-count guard) and emits no partition of the input at all. -/
theorem c1_counterexample :
    (∀ l ∈ List.replicate 101 "100:1:Alpha", (parseDescriptor l).isSome = true) ∧
    allBlocks ⟨none, List.replicate 101 "100:1:Alpha"⟩ = none :=
  ⟨by decide, by decide⟩

/-- C1 (amended): for every index input in which each line parses and
no maximal run of consecutive equal-offset lines exceeds 100 lines
(the guard threshold), the emitted blocks partition the parsed index
exactly: concatenating the blocks restores the descriptor sequence in
input order, every block is a non-empty equal-offset group, and
adjacent blocks have different offsets (each maximal run is one
block); in particular the three lines `100:1:Alpha`, `100:2:Beta`,
`250:3:Gamma` yield exactly the two blocks {Alpha, Beta} at offset 100
and {Gamma} at offset 250. -/
theorem c1_partition_amended :
    (∀ lines : List String,
      (∀ l ∈ lines, (parseDescriptor l).isSome = true) →
      runsOK (lines.filterMap parseDescriptor) = true →
      ∃ bs, allBlocks ⟨none, lines⟩ = some bs ∧
        bs.join = lines.filterMap parseDescriptor ∧
        (∀ b ∈ bs, b ≠ []) ∧
        (∀ b ∈ bs, ∀ d1 ∈ b, ∀ d2 ∈ b, d1.offset = d2.offset) ∧
        List.Chain' (fun b1 b2 => ∀ d1 d2, b1.getLast? = some d1 → b2.head? = some d2 →
          d1.offset ≠ d2.offset) bs) ∧
    allBlocks ⟨none, ["100:1:Alpha", "100:2:Beta", "250:3:Gamma"]⟩ =
      some [[⟨100, 1, "Alpha"⟩, ⟨100, 2, "Beta"⟩], [⟨250, 3, "Gamma"⟩]] := by
  constructor
  · intro lines hp hruns
    have hp' : parseOK ⟨none, lines⟩ := by
      intro l hl
      exact hp l (by simpa using hl)
    have hds : dsOf ⟨none, lines⟩ = lines.filterMap parseDescriptor := rfl
    exact runIter_spec (blocksMeasure ⟨none, lines⟩) ⟨none, lines⟩
      (blocksMeasure ⟨none, lines⟩ + 1) le_rfl (by omega) hp' (by rw [hds]; exact hruns)
  · decide

theorem c1_witness :
    ∃ bs, allBlocks ⟨none, ["100:1:Alpha", "100:2:Beta", "250:3:Gamma"]⟩ = some bs ∧
      bs.join = (["100:1:Alpha", "100:2:Beta", "250:3:Gamma"] :
        List String).filterMap parseDescriptor ∧
      (∀ b ∈ bs, b ≠ []) ∧
      (∀ b ∈ bs, ∀ d1 ∈ b, ∀ d2 ∈ b, d1.offset = d2.offset) ∧
      List.Chain' (fun b1 b2 => ∀ d1 d2, b1.getLast? = some d1 → b2.head? = some d2 →
        d1.offset ≠ d2.offset) bs :=
  c1_partition_amended.1 ["100:1:Alpha", "100:2:Beta", "250:3:Gamma"]
    (by decide) (by decide)
